import Mathlib

/-! Job-control shell: job table, monitor, launcher and builtins.

A shallow embedding of `jobs.c`, `shell.c` and the builtin commands of `command.c`.  The job table `jobs` (an array
of `njobmax` slots) is a `List job_t` whose length is `njobmax`; the process
array of a job (`proc`, `nproc`) is a `List proc_t` whose length is `nproc`.
`pid_t` and `int` values are `Int`; array indices are `Nat`.  An `assert` that
fails, or a read outside an array, makes the embedded function return `none`.
-/

namespace Shell

/-! ## Constants of `shell.h` -/

/-- The state constants of the enum in `shell.h`.  That header is not among the
sources, so the numeric values are taken as a parameter. -/
structure shell_h where
  FINISHED : Int
  RUNNING : Int
  STOPPED : Int
  ALL : Int
deriving DecidableEq, Repr

/-- The three job states are pairwise different values. -/
def shell_h.distinct (K : shell_h) : Prop :=
  K.RUNNING ≠ K.STOPPED ∧ K.RUNNING ≠ K.FINISHED ∧ K.STOPPED ≠ K.FINISHED

instance (K : shell_h) : Decidable K.distinct := by
  unfold shell_h.distinct; infer_instance

/-- One admissible choice of the constants, used for concrete evaluations. -/
def K0 : shell_h := ⟨0, 1, 2, -1⟩

/-- Modelled from the spec: `FG` of `shell.h` (missing); "Index 0 is reserved as
the foreground slot (FG)". -/
def FG : Nat := 0

/-- Modelled from the spec: `BG` of `shell.h` (missing); "indices ≥ 1 are
background slots (BG base = 1)". -/
def BG : Nat := 1

/-! ## Data model (`jobs.c`, lines 3-23) -/

/-- Embedding of `proc_t`. -/
structure proc_t where
  pid : Int
  state : Int
  exitcode : Int
deriving DecidableEq, Repr

/-- Embedding of `job_t`; `nproc` is the length of `proc`, `command = none` is the `NULL`
pointer, `tmodes` stands for the saved `struct termios`. -/
structure job_t where
  pgid : Int
  proc : List proc_t
  tmodes : Nat
  state : Int
  command : Option String
deriving DecidableEq, Repr

/-- A slot as left by `memset(..., 0, sizeof(job_t))` or `calloc`. -/
def zero_job : job_t := ⟨0, [], 0, 0, none⟩

/-- Embedding of `WIFCONTINUED(status)` of `<sys/wait.h>`: `status == 0xffff`. -/
def WIFCONTINUED (status : Int) : Bool := status == 0xffff

/-- Embedding of `WIFSTOPPED(status)` of `<sys/wait.h>`: `(status & 0xff) == 0x7f`. -/
def WIFSTOPPED (status : Int) : Bool := status % 256 == 0x7f

/-- Embedding of `WIFEXITED(status)`: `(status & 0x7f) == 0`. -/
def WIFEXITED (status : Int) : Bool := status % 128 == 0

/-- Embedding of `WEXITSTATUS(status)`: `(status & 0xff00) >> 8`. -/
def WEXITSTATUS (status : Int) : Int := (status / 256) % 256

/-- Embedding of `WTERMSIG(status)`: `status & 0x7f`. -/
def WTERMSIG (status : Int) : Int := status % 128

/-- Embedding of `WIFSIGNALED(status)`: `((signed char) ((status & 0x7f) + 1) >> 1) > 0`. -/
def WIFSIGNALED (status : Int) : Bool :=
  decide (0 < status % 128) && decide (status % 128 < 127)

/-! ## `sigchld_handler` (`jobs.c`, lines 25-75) -/

/-- Lines 38-46: the new state of the process record that matched `pid`. -/
def sigchld_proc (K : shell_h) (status : Int) (p : proc_t) : proc_t :=
  if WIFCONTINUED status then { p with state := K.RUNNING }
  else if WIFSTOPPED status then { p with state := K.STOPPED }
  else { p with state := K.FINISHED, exitcode := status }

/-- Lines 48-67: the job state computed from the process records by the two
scans (`is_running`, `is_stopped`). -/
def sigchld_jobstate (K : shell_h) (proc : List proc_t) : Int :=
  let is_running := proc.any (fun p => decide (p.state = K.RUNNING))
  let is_stopped := !is_running && proc.any (fun p => decide (p.state = K.STOPPED))
  if is_running then K.RUNNING
  else if is_stopped then K.STOPPED
  else K.FINISHED

/-- The inner loop `for (j ...)` at line 35: the process array with the first
record whose pid is `pid` updated, or `none` when no record matches. -/
def sigchld_scan_proc (K : shell_h) (pid status : Int) : List proc_t → Option (List proc_t)
  | [] => none
  | p :: ps =>
    if p.pid = pid then some (sigchld_proc K status p :: ps)
    else (sigchld_scan_proc K pid status ps).map (fun ps' => p :: ps')

/-- The body of the `while` loop (lines 34-71) for one `(pid, status)` reported
by `waitpid`: the outer loop `for (i ...)` stops at the first job that has a
matching process (`i = njobmax; break`). -/
def sigchld_reap (K : shell_h) (pid status : Int) : List job_t → List job_t
  | [] => []
  | job :: rest =>
    match sigchld_scan_proc K pid status job.proc with
    | some proc => { job with proc := proc, state := sigchld_jobstate K proc } :: rest
    | none => job :: sigchld_reap K pid status rest

/-- The handler: `reports` are the `(pid, status)` pairs that the successive
`waitpid` calls return before one returns a value `≤ 0`. -/
def sigchld_handler (K : shell_h) (reports : List (Int × Int)) (jobs : List job_t) : List job_t :=
  reports.foldl (fun js r => sigchld_reap K r.1 r.2 js) jobs

/-! ## Job table operations (`jobs.c`, lines 77-176) -/

/-- Embedding of `exitcode(job)`: `job->proc[job->nproc - 1].exitcode`; `none` when the job
has no process (the read would be outside the array). -/
def exitcode (job : job_t) : Option Int :=
  job.proc.getLast?.map (fun p => p.exitcode)

/-- The loop of `allocjob` (lines 86-88) from index `j` on, over the slots
`j, j+1, ...`: the first index whose slot has `pgid == 0`. -/
def allocjob_scan (j : Nat) : List job_t → Option Nat
  | [] => none
  | job :: rest => if job.pgid = 0 then some j else allocjob_scan (j + 1) rest

/-- Embedding of `allocjob()`: the index returned and the table afterwards (`realloc` by one
slot, `memset` of the new slot, `return njobmax++`). -/
def allocjob (jobs : List job_t) : Nat × List job_t :=
  match allocjob_scan BG (jobs.drop BG) with
  | some j => (j, jobs)
  | none => (jobs.length, jobs ++ [zero_job])

/-- Embedding of `addjob(pgid, bg)`; `shell_tmodes` is the saved terminal state of the shell. -/
def addjob (K : shell_h) (shell_tmodes : Nat) (jobs : List job_t) (pgid : Int) (bg : Bool) :
    Nat × List job_t :=
  let (j, jobs) := if bg then allocjob jobs else (FG, jobs)
  (j, jobs.set j { pgid := pgid, state := K.RUNNING, command := none, proc := [],
                   tmodes := shell_tmodes })

/-- Embedding of `deljob(job)`; `none` when `assert(job->state == FINISHED)` fails. -/
def deljob (K : shell_h) (job : job_t) : Option job_t :=
  if job.state = K.FINISHED then
    some { job with pgid := 0, command := none, proc := [] }
  else none

/-- Embedding of `movejob(from, to)`; `none` when `assert(jobs[to].pgid == 0)` fails or an
index is outside the table. -/
def movejob (jobs : List job_t) (src dst : Nat) : Option (List job_t) :=
  match jobs[src]?, jobs[dst]? with
  | some job, some target =>
    if target.pgid = 0 then some ((jobs.set dst job).set src zero_job) else none
  | _, _ => none

/-- Modelled from the spec: `strapp(dstp, src)` is a helper of this repository
that is not among the sources; §4.2 says `addproc` "append[s] ... to the command
string": a `NULL` destination becomes a copy of `src`, otherwise `src` is
appended to it. -/
def strapp (dst : Option String) (src : String) : Option String :=
  match dst with
  | none => some src
  | some d => some (d ++ src)

/-- The loop of `mkcommand` (lines 140-144) over the arguments after the first. -/
def mkcommand_rest (cmd : Option String) : List String → Option String
  | [] => cmd
  | a :: argv => mkcommand_rest (strapp (strapp cmd " ") a) argv

/-- Embedding of `mkcommand(cmdp, argv)`: `cmd` is `*cmdp` before the call, `argv` the
strings before the terminating `NULL`.  The result `some c` is the command
string `*cmdp` after the call; `none` means that `argv[0]` is `NULL`, which
`strapp` cannot read. -/
def mkcommand (cmd : Option String) : List String → Option String
  | [] => none
  | a :: argv =>
    let cmd := if cmd.isSome then strapp cmd " | " else cmd
    mkcommand_rest (strapp cmd a) argv

/-- Embedding of `addproc(j, pid, argv)` with `allocproc(j)` inlined; `none` when
`assert(j < njobmax)` fails or `mkcommand` cannot read `argv[0]`. -/
def addproc (K : shell_h) (jobs : List job_t) (j : Nat) (pid : Int) (argv : List String) :
    Option (List job_t) :=
  match jobs[j]? with
  | none => none
  | some job =>
    match mkcommand job.command argv with
    | none => none
    | some c =>
      some (jobs.set j { job with proc := job.proc ++ [⟨pid, K.RUNNING, -1⟩], command := some c })

/-- Embedding of `jobstate(j, statusp)`: `status` is `*statusp` before the call; the result
is the returned state, `*statusp` after the call, and the table after the call. -/
def jobstate (K : shell_h) (jobs : List job_t) (j : Nat) (status : Int) :
    Option (Int × Int × List job_t) :=
  match jobs[j]? with
  | none => none
  | some job =>
    let state := job.state
    if state = K.FINISHED then
      match exitcode job, deljob K job with
      | some e, some job' => some (state, e, jobs.set j job')
      | _, _ => none
    else some (state, status, jobs)

/-- Embedding of `jobcmd(j)`. -/
def jobcmd (jobs : List job_t) (j : Nat) : Option String :=
  (jobs[j]?).bind (fun job => job.command)

/-! ## `watchjobs` (`jobs.c`, lines 242-275) -/

/-- The lines written with `msg`: the format string is named by the
constructor, the arguments are its fields.
`running`: `"[%d] running '%s'\n"`; `suspended`: `"[%d] suspended '%s'\n"`;
`exited`: `"[%d] exited '%s', status=%d\n"`;
`killed`: `"[%d] killed '%s' by signal %d\n"`;
`unidentified`: `"[%d] '%s' unidentified termination\n"`;
`continued`: `"[%d] continue '%s'\n"`;
`continued_some`: `"[%d] continue '%s' (some processes were already running)\n"`;
`cd_error`: `"cd: %s: %s\n"` (the text of `strerror(errno)` is left out);
`fg_not_found`: `"fg: job not found: %s\n"`; `bg_not_found`, `kill_not_found`
likewise. -/
inductive msg_t where
  | running (j : Nat) (command : Option String)
  | suspended (j : Nat) (command : Option String)
  | exited (j : Nat) (command : Option String) (status : Int)
  | killed (j : Nat) (command : Option String) (signal : Int)
  | unidentified (j : Nat) (command : Option String)
  | continued (j : Nat) (command : Option String)
  | continued_some (j : Nat) (command : Option String)
  | cd_error (path : Option String)
  | fg_not_found (arg : Option String)
  | bg_not_found (arg : Option String)
  | kill_not_found (arg : Option String)
deriving DecidableEq, Repr

/-- The job number of a line that reports a finished job (lines 261-271). -/
def msg_t.finished? : msg_t → Option Nat
  | .exited j _ _ => some j
  | .killed j _ _ => some j
  | .unidentified j _ => some j
  | _ => none

/-- Lines 259-271: the line printed for a finished job with wait status `wstatus`. -/
def finished_msg (j : Nat) (command : Option String) (wstatus : Int) : msg_t :=
  if WIFEXITED wstatus then .exited j command (WEXITSTATUS wstatus)
  else if WIFSIGNALED wstatus then .killed j command (WTERMSIG wstatus)
  else .unidentified j command

/-- The loop of `watchjobs` from index `j` on, over the slots `j, j+1, ...`:
the lines printed and the slots afterwards. -/
def watchjobs_loop (K : shell_h) (which : Int) (j : Nat) :
    List job_t → Option (List msg_t × List job_t)
  | [] => some ([], [])
  | job :: rest =>
    if job.pgid = 0 then
      (watchjobs_loop K which (j + 1) rest).map (fun r => (r.1, job :: r.2))
    else if job.state ≠ which ∧ which ≠ K.ALL then
      (watchjobs_loop K which (j + 1) rest).map (fun r => (r.1, job :: r.2))
    else if job.state = K.RUNNING then
      (watchjobs_loop K which (j + 1) rest).map
        (fun r => (msg_t.running j job.command :: r.1, job :: r.2))
    else if job.state = K.STOPPED then
      (watchjobs_loop K which (j + 1) rest).map
        (fun r => (msg_t.suspended j job.command :: r.1, job :: r.2))
    else
      match exitcode job, deljob K job with
      | some wstatus, some job' =>
        (watchjobs_loop K which (j + 1) rest).map
          (fun r => (finished_msg j job.command wstatus :: r.1, job' :: r.2))
      | _, _ => none

/-- Embedding of `watchjobs(which)`: the lines printed and the table afterwards. -/
def watchjobs (K : shell_h) (which : Int) (jobs : List job_t) :
    Option (List msg_t × List job_t) :=
  (watchjobs_loop K which BG (jobs.drop BG)).map (fun r => (r.1, jobs.take BG ++ r.2))

/-- A slot that holds no job: `pgid = 0`, no processes, no command string. -/
def job_t.free (job : job_t) : Prop :=
  job.pgid = 0 ∧ job.proc = [] ∧ job.command = none

instance (job : job_t) : Decidable job.free := by
  unfold job_t.free; infer_instance

/-- The pids of the processes of a job. -/
def job_t.pids (job : job_t) : List Int := job.proc.map (fun p => p.pid)

/-- Some process of the job is in state `st`. -/
def job_t.has_proc_in (job : job_t) (st : Int) : Prop :=
  ∃ p ∈ job.proc, p.state = st

/-- Embedding of `addproc` for the stages of a pipeline, in order. -/
def addprocs (K : shell_h) (jobs : List job_t) (j : Nat) :
    List (Int × List String) → Option (List job_t)
  | [] => some jobs
  | (pid, argv) :: stages => (addproc K jobs j pid argv).bind (fun jobs' => addprocs K jobs' j stages)

/-! ## The shell process and its environment

The launcher and the monitor change more than the job table: they open and
close descriptors, fork children, and wait for signals.  `sys` is the state of
the shell process together with what the environment will answer. -/

/-- What the shell did, in order: the system calls that matter for the
descriptors and the children, the job-table calls, the lines printed. -/
inductive event_t where
  | open_rd (path : String) (fd : Int)
  | open_wr (path : String) (fd : Int)
  | close (fd : Int)
  | pipe (rd wr : Int)
  | fork (pid : Int) (input output : Int)
  | setpgid (pid pgid : Int)
  | kill (pid : Int) (sig : String)
  | addjob (pgid : Int) (bg : Bool) (j : Nat)
  | addproc (j : Nat) (pid : Int) (argv : List String)
  | msg (m : msg_t)
  | app_error (text : String)
  | exit (code : Int)
deriving DecidableEq, Repr

/-- The state of the shell process.
`fds`: the descriptors open in the shell; `opens`: for each coming call of
`open`, in order, whether it succeeds (with no entry left it fails); `pids`:
the pids that the coming calls of `Fork` return to the parent; `signals`: for
each coming `Sigsuspend`,
the `(pid, status)` pairs that `waitpid` reports to the SIGCHLD handler that
ends it; `tty_pgrp`, `tty_modes`: foreground process group and modes of the
controlling terminal; `shell_pgrp`: `getpgrp()`; `shell_tmodes`: the static
`shell_tmodes`; `tty_fd`: the static `tty_fd`; `home`: `getenv("HOME")`; `dirs`:
the paths to which `chdir` succeeds; `cwd`: the working directory; `log`: what
happened so far. -/
structure sys where
  jobs : List job_t
  fds : List Int
  opens : List Bool
  pids : List Int
  signals : List (List (Int × Int))
  tty_pgrp : Int
  tty_modes : Nat
  shell_pgrp : Int
  shell_tmodes : Nat
  tty_fd : Int
  home : Option String
  dirs : List String
  cwd : String
  log : List event_t
deriving DecidableEq, Repr

/-- How a call ends: it returns `a` in state `s` (`ok`); the shell process
ends, by a failed `assert`, by `app_error`, by a failed system call wrapper, by
an invalid read or by `exit` (`abort`); or it waits in `Sigsuspend` for a
signal that never comes (`blocked`). -/
inductive res (α : Type) where
  | ok (a : α) (s : sys)
  | abort (s : sys)
  | blocked (s : sys)
deriving DecidableEq, Repr

/-- Embedding of `Sigsuspend(mask)`: the next batch of child reports is handled by
`sigchld_handler`. -/
def Sigsuspend (K : shell_h) (s : sys) : res Unit :=
  match s.signals with
  | [] => .blocked s
  | reports :: rest =>
    .ok () { s with signals := rest, jobs := sigchld_handler K reports s.jobs }

/-- Embedding of `Kill(pid, sig)`: recorded; its effect on the children comes back through
`signals`. -/
def Kill (pid : Int) (sig : String) (s : sys) : sys :=
  { s with log := s.log ++ [.kill pid sig] }

/-- Embedding of `msg(...)`. -/
def msg (m : msg_t) (s : sys) : sys :=
  { s with log := s.log ++ [.msg m] }

/-! ## `monitorjob` (`jobs.c`, lines 279-324) -/

/-- Lines 300-304: `while (jobs[FG].state == STOPPED && tries++ <= 128)`;
`n` is the number of iterations still allowed (129 at the start). -/
def monitorjob_cont (K : shell_h) : Nat → sys → res Unit
  | 0, s => .ok () s
  | n + 1, s =>
    match s.jobs[FG]? with
    | none => .abort s
    | some job =>
      if job.state = K.STOPPED then
        match Sigsuspend K (Kill (-job.pgid) "SIGCONT" s) with
        | .ok _ s => monitorjob_cont K n s
        | .abort s => .abort s
        | .blocked s => .blocked s
      else .ok () s

/-- Lines 305-312: `while (true) { state = jobstate(FG, &exitcode); ... }`;
the result is `(state, exitcode)`.  Every iteration that continues consumes one
entry of `signals`, so `fuel = signals.length + 1` iterations are enough. -/
def monitorjob_wait (K : shell_h) : Nat → Int → sys → res (Int × Int)
  | 0, _, s => .blocked s
  | fuel + 1, exitcode, s =>
    match jobstate K s.jobs FG exitcode with
    | none => .abort s
    | some (state, exitcode, jobs) =>
      let s := { s with jobs := jobs }
      if state = K.RUNNING then
        match Sigsuspend K s with
        | .ok _ s => monitorjob_wait K fuel exitcode s
        | .abort s => .abort s
        | .blocked s => .blocked s
      else .ok (state, exitcode) s

/-- Embedding of `monitorjob(mask)`.  The local `exitcode` is declared without an
initialiser (`int exitcode, state;`): `exitcode0` is the value it happens to
hold. -/
def monitorjob (K : shell_h) (exitcode0 : Int) (s : sys) : res Int :=
  match s.jobs[FG]? with
  | none => .abort s
  | some fg =>
    let s := { s with tty_pgrp := fg.pgid }
    let s := Kill (-fg.pgid) "SIGCONT" s
    match monitorjob_cont K 129 s with
    | .abort s => .abort s
    | .blocked s => .blocked s
    | .ok _ s =>
      match monitorjob_wait K (s.signals.length + 1) exitcode0 s with
      | .abort s => .abort s
      | .blocked s => .blocked s
      | .ok (state, exitcode) s =>
        let moved : Option sys :=
          if state = K.STOPPED then
            let (new_bg_job, jobs) := addjob K s.shell_tmodes s.jobs 0 true
            match movejob jobs FG new_bg_job with
            | none => none
            | some jobs =>
              match jobs[new_bg_job]? with
              | none => none
              | some job =>
                let jobs := jobs.set new_bg_job { job with tmodes := s.tty_modes }
                some (msg (.suspended new_bg_job job.command) { s with jobs := jobs })
          else some s
        match moved with
        | none => .abort s
        | some s =>
          .ok exitcode { s with tty_pgrp := s.shell_pgrp, tty_modes := s.shell_tmodes }

/-! ## Tokens and descriptors (`shell.c`) -/

/-- Embedding of `token_t`: the tokenizer stores strings and small operator tags in one
array.  `T_NULL` is the `NULL` pointer, `word` a string (a pointer
`>= (token_t)10`), `T_OTHER` the operator tags this code never names. -/
inductive token_t where
  | T_NULL
  | T_PIPE
  | T_BGJOB
  | T_OUTPUT
  | T_INPUT
  | T_OTHER (tag : Nat)
  | word (text : String)
deriving DecidableEq, Repr

/-- The test `token >= (token_t)10`: the token is a string. -/
def token_t.is_word : token_t → Bool
  | .word _ => true
  | _ => false

/-- Chaining of calls: the next call runs only when the previous one returned. -/
def res.bind {α β : Type} (r : res α) (f : α → sys → res β) : res β :=
  match r with
  | .ok a s => f a s
  | .abort s => .abort s
  | .blocked s => .blocked s

/-- The search of the kernel for the lowest descriptor number that is not in
use, starting at `n`, looking at no more than `fuel` numbers. -/
def fd_alloc_from (fds : List Int) : Nat → Nat → Int
  | 0, n => n
  | fuel + 1, n => if (n : Int) ∈ fds then fd_alloc_from fds fuel (n + 1) else n

/-- The descriptor that `open` or `pipe` returns next: the lowest number that is
not open (among `fds.length + 1` numbers one is free). -/
def fd_alloc (fds : List Int) : Int := fd_alloc_from fds fds.length 0

/-- Embedding of `Open(path, O_RDONLY, 0)`.  The environment decides whether `open`
succeeds (the next entry of `opens`): when it does, the lowest free descriptor
is returned; when it fails, the wrapper prints the error and ends the shell. -/
def Open_rd (path : String) (s : sys) : res Int :=
  match s.opens with
  | true :: opens =>
    let fd := fd_alloc s.fds
    .ok fd { s with fds := fd :: s.fds, opens := opens, log := s.log ++ [.open_rd path fd] }
  | _ => .abort s

/-- Embedding of `Open(path, O_CREAT | O_WRONLY, S_IRUSR | S_IWUSR | S_IRGRP)`, which
succeeds or ends the shell like `Open_rd`. -/
def Open_wr (path : String) (s : sys) : res Int :=
  match s.opens with
  | true :: opens =>
    let fd := fd_alloc s.fds
    .ok fd { s with fds := fd :: s.fds, opens := opens, log := s.log ++ [.open_wr path fd] }
  | _ => .abort s

/-- Embedding of `Close(fd)`: the wrapper stops the shell when `close` fails, which it does
for a descriptor that is not open. -/
def Close (fd : Int) (s : sys) : res Unit :=
  if fd ∈ s.fds then
    .ok () { s with fds := s.fds.filter (fun x => x ≠ fd), log := s.log ++ [.close fd] }
  else .abort s

/-- Embedding of `MaybeClose(fdp)` (lines 18-24): the result is `*fdp` after the call. -/
def MaybeClose (fd : Int) (s : sys) : res Int :=
  if fd < 0 then .ok fd s
  else (Close fd s).bind fun _ s => .ok (-1) s

/-- Embedding of `Fork()` as seen by the parent: the pid of the child, whose standard input
and output will be `input` and `output` (when not -1).  The wrapper stops the
shell when `fork` fails (no pid is left in `pids`). -/
def Fork (input output : Int) (s : sys) : res Int :=
  match s.pids with
  | [] => .abort s
  | pid :: pids => .ok pid { s with pids := pids, log := s.log ++ [.fork pid input output] }

/-- Embedding of `mkpipe(readp, writep)` (lines 158-166): the read end and the write end. -/
def mkpipe (s : sys) : res (Int × Int) :=
  let rd := fd_alloc s.fds
  let wr := fd_alloc (rd :: s.fds)
  .ok (rd, wr) { s with fds := wr :: rd :: s.fds, log := s.log ++ [.pipe rd wr] }

/-! ## `do_redir` (`shell.c`, lines 28-62)

The token array is a `List token_t`; the pointer `&token[base]` is the pair of
the array and the offset `base`. -/

/-- Lines 53-54: `for (int j = i + 2; j < ntokens; j++) token[j - 2] = token[j];`
with `n` iterations left, the next one for index `j` (`j ≥ 2`). -/
def do_redir_shift (base : Nat) : Nat → Nat → List token_t → List token_t
  | 0, _, token => token
  | n + 1, j, token =>
    do_redir_shift base n (j + 1) (token.set (base + j - 2) (token.getD (base + j) .T_NULL))

/-- Lines 43-52: the descriptor of the side named by `mode` is closed and
replaced by the one opened for `path`; the result is `(*inputp, *outputp)`. -/
def do_redir_open (mode : token_t) (path : String) (input output : Int) (s : sys) :
    res (Int × Int) :=
  if mode = .T_INPUT then
    (MaybeClose input s).bind fun _ s =>
      (Open_rd path s).bind fun fd s => .ok (fd, output) s
  else
    (MaybeClose output s).bind fun _ s =>
      (Open_wr path s).bind fun fd s => .ok (input, fd) s

/-- The loop of `do_redir` (lines 33-58) at index `i`; the result is
`(n, token, *inputp, *outputp)`.  Every iteration either advances `i` or removes
two tokens, so `ntokens + 1` iterations are enough. -/
def do_redir_loop (base : Nat) :
    Nat → List token_t → Nat → Nat → Int → Int → sys → res (Nat × List token_t × Int × Int)
  | 0, _, _, _, _, _, s => .abort s
  | fuel + 1, token, i, ntokens, input, output, s =>
    if i < ntokens then
      match token[base + i]? with
      | none => .abort s
      | some mode =>
        if mode = .T_NULL then .ok (i, token, input, output) s
        else if mode = .T_INPUT ∨ mode = .T_OUTPUT then
          if i + 1 < ntokens then
            match token[base + (i + 1)]? with
            | some (.word path) =>
              (do_redir_open mode path input output s).bind fun io s =>
                do_redir_loop base fuel
                  (do_redir_shift base (ntokens - (i + 2)) (i + 2) token) i (ntokens - 2)
                  io.1 io.2 s
            | _ => .abort s
          else .abort s
        else do_redir_loop base fuel token (i + 1) ntokens input output s
    else .ok (ntokens, token.set (base + ntokens) .T_NULL, input, output) s

/-- Embedding of `do_redir(&token[base], ntokens, inputp, outputp)`. -/
def do_redir (token : List token_t) (base ntokens : Nat) (input output : Int) (s : sys) :
    res (Nat × List token_t × Int × Int) :=
  do_redir_loop base (ntokens + 1) token 0 ntokens input output s

/-! ## `do_stage` and `do_pipeline` (`shell.c`, lines 120-233) -/

/-- Embedding of `do_stage(pgid, mask, input, output, &token[base], ntokens)` in the parent:
the pid of the child and the token array afterwards. -/
def do_stage (pgid : Int) (input output : Int) (token : List token_t) (base ntokens : Nat)
    (s : sys) : res (Int × List token_t) :=
  (do_redir token base ntokens input output s).bind fun r s =>
    if r.1 = 0 then
      .abort { s with log := s.log ++ [.app_error "ERROR: Command line is not well formed!"] }
    else
      (Fork r.2.2.1 r.2.2.2 s).bind fun pid s =>
        let s := { s with log := s.log ++ [.setpgid pid (if pgid = 0 then pid else pgid)] }
        (MaybeClose r.2.2.1 s).bind fun _ s =>
          (MaybeClose r.2.2.2 s).bind fun _ s => .ok (pid, r.2.1) s

/-- The argument vector that starts at the head of `token`: the strings before
the first `NULL`.  `none` when the array ends before a `NULL` or when an
operator tag stands where a string is read. -/
def argv_of : List token_t → Option (List String)
  | [] => none
  | .T_NULL :: _ => some []
  | .word a :: rest => (argv_of rest).map (fun argv => a :: argv)
  | _ :: _ => none

/-- The call `addjob(pgid, bg)` of the launcher. -/
def call_addjob (K : shell_h) (pgid : Int) (bg : Bool) (s : sys) : Nat × sys :=
  let r := addjob K s.shell_tmodes s.jobs pgid bg
  (r.1, { s with jobs := r.2, log := s.log ++ [.addjob pgid bg r.1] })

/-- The call `addproc(job, pid, &token[base])` of the launcher. -/
def call_addproc (K : shell_h) (job : Int) (pid : Int) (token : List token_t) (base : Nat)
    (s : sys) : res Unit :=
  if job < 0 then .abort s
  else
    match argv_of (token.drop base) with
    | none => .abort s
    | some argv =>
      match addproc K s.jobs job.toNat pid argv with
      | none => .abort s
      | some jobs =>
        .ok () { s with jobs := jobs, log := s.log ++ [.addproc job.toNat pid argv] }

/-- The locals of `do_pipeline` that live across the loop. -/
structure pipeline_t where
  pgid : Int
  job : Int
  input : Int
  output : Int
  next_input : Int
  latest_t_pipe : Int
  token : List token_t
deriving DecidableEq, Repr

/-- Lines 197-220: what `do_pipeline` does at the pipe symbol `token[i]` once
the `assert` has passed: the stage that ends there is started and registered,
and the pipe to the next stage is made. -/
def do_pipeline_pipe (K : shell_h) (bg : Bool) (i : Nat) (st : pipeline_t) (s : sys) :
    res pipeline_t :=
  let staged : res pipeline_t :=
    if st.pgid = 0 then
      (do_stage st.pgid st.input st.output st.token 0 i s).bind fun r s =>
        let a := call_addjob K r.1 bg s
        let token := r.2.set i .T_NULL
        (call_addproc K a.1 r.1 token 0 a.2).bind fun _ s =>
          .ok { st with pgid := r.1, latest_t_pipe := i, job := a.1, token := token } s
    else
      let base := (st.latest_t_pipe + 1).toNat
      (do_stage st.pgid st.input st.output st.token base (i - base) s).bind fun r s =>
        (call_addproc K st.job r.1 r.2 base s).bind fun _ s =>
          .ok { st with latest_t_pipe := i, token := r.2.set i .T_NULL } s
  staged.bind fun st s =>
    (mkpipe s).bind fun p s =>
      .ok { st with input := st.next_input, next_input := p.1, output := p.2 } s

/-- The loop of `do_pipeline` (lines 192-222) with `n` iterations left, the
next one for index `i`. -/
def do_pipeline_loop (K : shell_h) (bg : Bool) (ntokens : Nat) :
    Nat → Nat → pipeline_t → sys → res pipeline_t
  | 0, _, st, s => .ok st s
  | n + 1, i, st, s =>
    match st.token[i]? with
    | none => .abort s
    | some t =>
      if t = .T_PIPE then
        if i + 1 < ntokens ∧ (st.token[i + 1]?.map token_t.is_word) = some true then
          (do_pipeline_pipe K bg i st s).bind fun st s =>
            do_pipeline_loop K bg ntokens n (i + 1) st s
        else .abort s
      else do_pipeline_loop K bg ntokens n (i + 1) st s

/-- Lines 224-227: the pipe made last is closed unused, then the stage after the
last pipe symbol is started and registered. -/
def do_pipeline_finish (K : shell_h) (ntokens : Nat) (st : pipeline_t) (s : sys) :
    res pipeline_t :=
  (MaybeClose st.output s).bind fun output s =>
    (MaybeClose st.next_input s).bind fun next_input s =>
      let base := (st.latest_t_pipe + 1).toNat
      (do_stage st.pgid st.input output st.token base (ntokens - base) s).bind fun r s =>
        (call_addproc K st.job r.1 r.2 base s).bind fun _ s =>
          .ok { st with output := output, next_input := next_input, token := r.2 } s

/-- Embedding of `do_pipeline` up to the registration of the last stage (lines 172-227). -/
def do_pipeline_launch (K : shell_h) (token : List token_t) (ntokens : Nat) (bg : Bool)
    (s : sys) : res pipeline_t :=
  (mkpipe s).bind fun p s =>
    (do_pipeline_loop K bg ntokens ntokens 0
      { pgid := 0, job := -1, input := -1, output := p.2, next_input := p.1,
        latest_t_pipe := -1, token := token } s).bind fun st s =>
      do_pipeline_finish K ntokens st s

/-- Embedding of `do_pipeline(token, ntokens, bg)`: the value returned.  `exitcode0` is the
value that the uninitialised local of `monitorjob` holds. -/
def do_pipeline (K : shell_h) (exitcode0 : Int) (token : List token_t) (ntokens : Nat)
    (bg : Bool) (s : sys) : res Int :=
  (do_pipeline_launch K token ntokens bg s).bind fun _ s =>
    if bg then .ok 0 s else monitorjob K exitcode0 s

/-! ## `resumejob`, `killjob`, `shutdownjobs` (`jobs.c`, lines 187-239, 346-378) -/

/-- Line 191: `for (j = njobmax - 1; j > 0 && jobs[j].state == FINISHED; j--)`,
from index `j` downwards: the index at which the scan stops. -/
def resumejob_scan (K : shell_h) (jobs : List job_t) : Nat → Nat
  | 0 => 0
  | j + 1 =>
    match jobs[j + 1]? with
    | some job => if job.state = K.FINISHED then resumejob_scan K jobs j else j + 1
    | none => j + 1

/-- Embedding of `resumejob(j, bg, mask)`; `bg` is `FG` or `BG`, `exitcode0` the value held by
the uninitialised local of `monitorjob`. -/
def resumejob (K : shell_h) (exitcode0 : Int) (j : Int) (bg : Nat) (s : sys) : res Bool :=
  let j : Nat := if j < 0 then resumejob_scan K s.jobs (s.jobs.length - 1) else j.toNat
  match s.jobs[j]? with
  | none => .ok false s
  | some job =>
    if job.state = K.FINISHED then .ok false s
    else
      let sendmsg : Nat :=
        if job.state = K.RUNNING then
          (if job.proc.any (fun p => decide (p.state = K.STOPPED)) then 1 else 0)
        else 2
      if job.pgid > 1 then
        let s := Kill (-job.pgid) "SIGCONT" s
        (if job.state = K.STOPPED then Sigsuspend K s else .ok () s).bind fun _ s =>
          let s :=
            if sendmsg = 2 then msg (.continued j (jobcmd s.jobs j)) s
            else if sendmsg = 1 then msg (.continued_some j (jobcmd s.jobs j)) s
            else s
          if bg = FG then
            match movejob s.jobs j FG with
            | none => .abort s
            | some jobs =>
              match jobs[FG]? with
              | none => .abort s
              | some fg =>
                (monitorjob K exitcode0 { s with jobs := jobs, tty_modes := fg.tmodes }).bind
                  fun _ s => .ok true s
          else .ok true s
      else .abort s

/-- Embedding of `killjob(j)`; a negative `j` makes the code read before the table. -/
def killjob (K : shell_h) (j : Int) (s : sys) : res Bool :=
  if j < 0 then .abort s
  else
    match s.jobs[j.toNat]? with
    | none => .ok false s
    | some job =>
      if job.state = K.FINISHED then .ok false s
      else
        .ok true (job.proc.foldl
          (fun s p =>
            let s := Kill p.pid "SIGTERM" s
            if p.state = K.STOPPED then Kill p.pid "SIGCONT" s else s) s)

/-- Lines 359-372 of `shutdownjobs`: wait until every slot is FINISHED; every
iteration that continues consumes one entry of `signals`. -/
def shutdownjobs_wait (K : shell_h) : Nat → sys → res Unit
  | 0, s => .blocked s
  | fuel + 1, s =>
    if s.jobs.any (fun job => decide (job.state ≠ K.FINISHED)) then
      (Sigsuspend K s).bind fun _ s => shutdownjobs_wait K fuel s
    else .ok () s

/-- Embedding of `shutdownjobs()`. -/
def shutdownjobs (K : shell_h) (s : sys) : res Unit :=
  let s := s.jobs.foldl
    (fun s job =>
      if job.state ≠ K.FINISHED then Kill job.pgid "SIGCONT" (Kill job.pgid "SIGTERM" s)
      else s) s
  (shutdownjobs_wait K (s.signals.length + 1) s).bind fun _ s =>
    match watchjobs K K.FINISHED s.jobs with
    | none => .abort s
    | some r =>
      Close s.tty_fd { s with jobs := r.2, log := s.log ++ r.1.map event_t.msg }

/-! ## Builtin commands (`command.c`) -/

/-- The digits read by `atoi`, `acc` being the value of those read so far. -/
def atoi_digits (acc : Nat) : List Char → Nat
  | [] => acc
  | c :: cs => if c.isDigit then atoi_digits (acc * 10 + (c.toNat - '0'.toNat)) cs else acc

/-- The library test `isspace` in the C locale: the space and the characters
with codes 9 to 13 (tab, newline, vertical tab, form feed, carriage return). -/
def isspace (c : Char) : Bool :=
  c.toNat = 32 || (9 ≤ c.toNat && c.toNat ≤ 13)

/-- The library function `strtol(a, NULL, 10)` with a 64-bit `long`: white
space, an optional sign, then digits; a value outside the range of `long` is
replaced by the nearest bound. -/
def strtol (a : String) : Int :=
  let v : Int :=
    match a.toList.dropWhile isspace with
    | '-' :: cs => -(atoi_digits 0 cs : Int)
    | '+' :: cs => (atoi_digits 0 cs : Int)
    | cs => (atoi_digits 0 cs : Int)
  if v < -9223372036854775808 then -9223372036854775808
  else if v > 9223372036854775807 then 9223372036854775807
  else v

/-- The conversion of a `long` to `int`: its low 32 bits, read as a signed
number. -/
def long_to_int (v : Int) : Int :=
  (v + 2147483648) % 4294967296 - 2147483648

/-- The library function `atoi`, which the C library computes as
`(int) strtol(a, NULL, 10)`: a number that does not fit in an `int` wraps
around (the C standard leaves that case undefined). -/
def atoi (a : String) : Int :=
  long_to_int (strtol a)

/-- The argument `argv[0]` read at the head of a token array: `some none` is
`NULL`; `none` means that no string can be read there. -/
def arg_at : List token_t → Option (Option String)
  | .T_NULL :: _ => some none
  | .word a :: _ => some (some a)
  | _ => none

/-- Embedding of `do_quit`: `shutdownjobs()`, then `exit(EXIT_SUCCESS)`. -/
def do_quit (K : shell_h) (s : sys) : res Int :=
  (shutdownjobs K s).bind fun _ s => .abort { s with log := s.log ++ [.exit 0] }

/-- Embedding of `do_chdir`; `arg` is `argv[0]`. -/
def do_chdir (arg : Option String) (s : sys) : res Int :=
  let path : Option String := match arg with
    | some p => some p
    | none => s.home
  match path with
  | some p => if p ∈ s.dirs then .ok 0 { s with cwd := p } else .ok 1 (msg (.cd_error path) s)
  | none => .ok 1 (msg (.cd_error none) s)

/-- Embedding of `do_jobs`. -/
def do_jobs (K : shell_h) (s : sys) : res Int :=
  match watchjobs K K.ALL s.jobs with
  | none => .abort s
  | some r => .ok 0 { s with jobs := r.2, log := s.log ++ r.1.map event_t.msg }

/-- Embedding of `do_fg`; `arg` is `argv[0]`. -/
def do_fg (K : shell_h) (exitcode0 : Int) (arg : Option String) (s : sys) : res Int :=
  let j : Int := match arg with
    | some a => atoi a
    | none => -1
  (resumejob K exitcode0 j FG s).bind fun found s =>
    .ok 0 (if found then s else msg (.fg_not_found arg) s)

/-- Embedding of `do_bg`; `arg` is `argv[0]`. -/
def do_bg (K : shell_h) (exitcode0 : Int) (arg : Option String) (s : sys) : res Int :=
  let j : Int := match arg with
    | some a => atoi a
    | none => -1
  (resumejob K exitcode0 j BG s).bind fun found s =>
    .ok 0 (if found then s else msg (.bg_not_found arg) s)

/-- Embedding of `do_kill`; `arg` is `argv[0]`. -/
def do_kill (K : shell_h) (arg : Option String) (s : sys) : res Int :=
  match arg with
  | none => .ok (-1) s
  | some a =>
    if a.toList.head? ≠ some '%' then .ok (-1) s
    else
      (killjob K (atoi (String.mk (a.toList.drop 1))) s).bind fun found s =>
        .ok 0 (if found then s else msg (.kill_not_found arg) s)

/-- Embedding of `builtin_command(argv)`: `argv` is the token array from `argv[0]` on; the
result -1 says that the command is not a builtin. -/
def builtin_command (K : shell_h) (exitcode0 : Int) (argv : List token_t) (s : sys) : res Int :=
  match argv with
  | .word name :: args =>
    if name = "quit" then do_quit K s
    else if name = "cd" then
      match arg_at args with
      | none => .abort s
      | some arg => do_chdir arg s
    else if name = "jobs" then do_jobs K s
    else if name = "fg" then
      match arg_at args with
      | none => .abort s
      | some arg => do_fg K exitcode0 arg s
    else if name = "bg" then
      match arg_at args with
      | none => .abort s
      | some arg => do_bg K exitcode0 arg s
    else if name = "kill" then
      match arg_at args with
      | none => .abort s
      | some arg => do_kill K arg s
    else .ok (-1) s
  | _ => .abort s

/-! ## `do_job` (`shell.c`, lines 66-116) -/

/-- Embedding of `do_job(token, ntokens, bg)` in the shell process: the value returned. -/
def do_job (K : shell_h) (exitcode0 : Int) (token : List token_t) (ntokens : Nat) (bg : Bool)
    (s : sys) : res Int :=
  (do_redir token 0 ntokens (-1) (-1) s).bind fun r s =>
    let fast : res Int := if bg then .ok 0 s else builtin_command K exitcode0 r.2.1 s
    fast.bind fun exitcode s =>
      if !bg ∧ exitcode ≥ 0 then .ok exitcode s
      else
        (Fork r.2.2.1 r.2.2.2 s).bind fun pid s =>
          let s := { s with log := s.log ++ [.setpgid pid pid] }
          (MaybeClose r.2.2.1 s).bind fun _ s =>
            (MaybeClose r.2.2.2 s).bind fun _ s =>
              let a := call_addjob K pid bg s
              (call_addproc K a.1 pid r.2.1 0 a.2).bind fun _ s =>
                if bg then .ok exitcode s else monitorjob K exitcode0 s

/-- Embedding of `is_pipeline(token, ntokens)` (lines 235-241). -/
def is_pipeline (token : List token_t) (ntokens : Nat) : Bool :=
  (token.take ntokens).any (fun t => decide (t = .T_PIPE))

/-! ## Notions used to state the properties of the launcher -/

/-- The token is one of the two redirection operators. -/
def token_t.is_redir (t : token_t) : Bool := t = .T_INPUT || t = .T_OUTPUT

/-- Each `T_INPUT`/`T_OUTPUT` of the token list is followed by a word (its
filename). -/
def redirs_wf : List token_t → Bool
  | [] => true
  | t :: rest =>
    if t.is_redir then
      match rest with
      | .word _ :: rest' => redirs_wf rest'
      | _ => false
    else redirs_wf rest

/-- The tokens that are neither a redirection operator nor its filename, in
their original order. -/
def strip_redirs : List token_t → List token_t
  | [] => []
  | t :: rest =>
    if t.is_redir then
      match rest with
      | _ :: rest' => strip_redirs rest'
      | [] => []
    else t :: strip_redirs rest

/-- The filenames of the redirections with operator `op`, in their order. -/
def redir_files (op : token_t) : List token_t → List String
  | [] => []
  | t :: rest =>
    if t.is_redir then
      match rest with
      | .word f :: rest' => (if t = op then [f] else []) ++ redir_files op rest'
      | _ => []
    else redir_files op rest

/-- The file opened for reading and the descriptor returned, for an
`Open(path, O_RDONLY, 0)` event. -/
def event_t.open_rd? : event_t → Option (String × Int)
  | .open_rd path fd => some (path, fd)
  | _ => none

/-- The file opened for writing and the descriptor returned. -/
def event_t.open_wr? : event_t → Option (String × Int)
  | .open_wr path fd => some (path, fd)
  | _ => none

/-- The event is an `open` or a `close`. -/
def event_t.is_fd_event : event_t → Bool
  | .open_rd _ _ => true
  | .open_wr _ _ => true
  | .close _ => true
  | _ => false

/-- The pid of the child, for a `fork` event. -/
def event_t.fork? : event_t → Option Int
  | .fork pid _ _ => some pid
  | _ => none

/-- The arguments and the result of an `addjob` call of the launcher. -/
def event_t.addjob? : event_t → Option (Int × Bool × Nat)
  | .addjob pgid bg j => some (pgid, bg, j)
  | _ => none

/-- The two descriptors returned by a `mkpipe` call. -/
def event_t.pipe_fds : event_t → List Int
  | .pipe rd wr => [rd, wr]
  | _ => []

/-- The pids of the children forked so far, in order. -/
def sys.forked (s : sys) : List Int := s.log.filterMap event_t.fork?

/-- The `addjob` calls of the launcher so far, in order. -/
def sys.addjob_calls (s : sys) : List (Int × Bool × Nat) := s.log.filterMap event_t.addjob?

/-- The state a call ended in. -/
def res.state {α : Type} : res α → sys
  | .ok _ s => s
  | .abort s => s
  | .blocked s => s

/-- The descriptors open in the shell are those of `B` together with the
non-negative entries of `own` (the descriptors held in local variables, -1
standing for "none"); the latter are pairwise different and not in `B`. -/
def fd_inv (fds B own : List Int) : Prop :=
  (∀ x, x ∈ fds ↔ x ∈ B ∨ (x ∈ own ∧ 0 ≤ x)) ∧
  (∀ x ∈ own, 0 ≤ x → x ∉ B) ∧
  (own.filter (fun x => decide (0 ≤ x))).Nodup

/-- Between `s` and `s'` only descriptors were opened and closed: besides the
descriptors and the answers of `open` still to come, the components are the
same, and the log grew by `open`/`close` events. -/
def fd_step (s s' : sys) : Prop :=
  ∃ evs, (∀ e ∈ evs, event_t.is_fd_event e = true) ∧
    s' = { s with fds := s'.fds, opens := s'.opens, log := s.log ++ evs }

/-- Between `s` and `s'` the log only grew, and no `mkpipe` call returned a
descriptor of `B`. -/
def launch_step (B : List Int) (s s' : sys) : Prop :=
  ∃ evs, s'.log = s.log ++ evs ∧ ∀ e ∈ evs, ∀ x ∈ event_t.pipe_fds e, x ∉ B

/-- The strings of the word tokens of a list. -/
def words_of : List token_t → List String
  | [] => []
  | .word a :: rest => a :: words_of rest
  | _ :: rest => words_of rest

/-- The token list begins with a word: what the `assert` of `do_pipeline`
demands of the stage after a pipe symbol. -/
def starts_with_word : List token_t → Bool
  | .word _ :: _ => true
  | _ => false

/-- The token vector of a pipeline: its stages separated by `T_PIPE`. -/
def join_stages : List (List token_t) → List token_t
  | [] => []
  | [ts] => ts
  | ts :: ts' :: rest => ts ++ .T_PIPE :: join_stages (ts' :: rest)

/-- The part of the shell state that the launcher changes besides the
descriptors: job table, remaining pids, children forked, `addjob` calls made. -/
structure view_t where
  jobs : List job_t
  pids : List Int
  shell_tmodes : Nat
  forked : List Int
  addjob_calls : List (Int × Bool × Nat)

/-- The view of a state. -/
def sys.view (s : sys) : view_t :=
  ⟨s.jobs, s.pids, s.shell_tmodes, s.forked, s.addjob_calls⟩

/-- The job number `j` names a live job of the table: slot `j` exists and the
state of the job in it is not FINISHED. -/
def names_live (K : shell_h) (jobs : List job_t) (j : Int) : Bool :=
  decide (0 ≤ j) &&
    match jobs[j.toNat]? with
    | some job => decide (job.state ≠ K.FINISHED)
    | none => false

/-! ## Concrete tables used to instantiate the theorems -/

/-- A finished foreground pipeline `false | true`: the first stage exited with
status 1 (raw status 256), the last with status 0. -/
def ex_finished_job : job_t :=
  ⟨5, [⟨5, 0, 256⟩, ⟨6, 0, 0⟩], 0, 0, some "false | true"⟩

/-- A table whose foreground slot holds `ex_finished_job`. -/
def ex_finished_table : List job_t := [ex_finished_job]

/-- A table with a running job in slot 1, a free slot 2, a stopped job in
slot 3 and a finished job in slot 4. -/
def ex_table : List job_t :=
  [zero_job,
   ⟨11, [⟨11, 1, -1⟩], 0, 1, some "sleep 30"⟩,
   zero_job,
   ⟨13, [⟨13, 2, -1⟩, ⟨14, 2, -1⟩], 0, 2, some "cat | wc -l"⟩,
   ⟨15, [⟨15, 0, 15⟩], 0, 0, some "sleep 9"⟩]

/-- A shell whose foreground slot holds the running job `sleep 100` (pid 5);
while the shell waits, the child is stopped by SIGTSTP (the user types Ctrl-Z):
`waitpid` reports `(5, 0x147f)`. -/
def ex_fg_sys : sys :=
  { jobs := [⟨5, [⟨5, 1, -1⟩], 0, 1, some "sleep 100"⟩],
    fds := [0, 1, 2, 3], opens := [], pids := [], signals := [[(5, 0x147f)]],
    tty_pgrp := 2, tty_modes := 0, shell_pgrp := 2, shell_tmodes := 0, tty_fd := 3,
    home := some "/root", dirs := ["/", "/root"], cwd := "/", log := [] }

/-- The same shell, the child exiting with status 3 instead: `waitpid` reports
`(5, 0x300)`. -/
def ex_fg_exit_sys : sys :=
  { ex_fg_sys with signals := [[(5, 0x300)]] }

/-- A shell with an empty job table, the standard descriptors and the
terminal open, four pids for the coming forks, and an environment in which the
next four calls of `open` succeed. -/
def ex_launch_sys : sys :=
  { jobs := [zero_job], fds := [0, 1, 2, 3], opens := [true, true, true, true],
    pids := [100, 101, 102, 103], signals := [],
    tty_pgrp := 2, tty_modes := 0, shell_pgrp := 2, shell_tmodes := 7, tty_fd := 3,
    home := some "/root", dirs := ["/", "/root"], cwd := "/", log := [] }

/-- The shell at its prompt with the job table `ex_table`. -/
def ex_jobs_sys : sys :=
  { ex_launch_sys with jobs := ex_table }

/-- The tokens of `cat > a < in > b`. -/
def ex_redir_tokens : List token_t :=
  [.word "cat", .T_OUTPUT, .word "a", .T_INPUT, .word "in", .T_OUTPUT, .word "b"]

/-! # Theorems -/

/-! ## The SIGCHLD handler -/

theorem sigchld_scan_proc_none (K : shell_h) (pid status : Int) (ps : List proc_t) :
    sigchld_scan_proc K pid status ps = none ↔ pid ∉ ps.map (fun p => p.pid) := by
  induction ps with
  | nil => simp [sigchld_scan_proc]
  | cons p ps ih =>
    by_cases h : p.pid = pid
    · simp [sigchld_scan_proc, h]
    · have h' : pid ≠ p.pid := fun e => h e.symm
      simp [sigchld_scan_proc, h, h', ih]

theorem sigchld_scan_proc_pids (K : shell_h) (pid status : Int) (ps ps' : List proc_t)
    (h : sigchld_scan_proc K pid status ps = some ps') :
    ps'.map (fun p => p.pid) = ps.map (fun p => p.pid) := by
  induction ps generalizing ps' with
  | nil => simp [sigchld_scan_proc] at h
  | cons p ps ih =>
    by_cases hp : p.pid = pid
    · simp [sigchld_scan_proc, hp] at h
      subst h
      simp [sigchld_proc]
      split <;> [rfl; (split <;> rfl)]
    · simp [sigchld_scan_proc, hp] at h
      obtain ⟨qs, hq, rfl⟩ := h
      simp [ih qs hq]

theorem sigchld_jobstate_spec (K : shell_h) (hK : K.distinct) (proc : List proc_t) :
    (sigchld_jobstate K proc = K.RUNNING ↔ ∃ p ∈ proc, p.state = K.RUNNING) ∧
    ((¬ ∃ p ∈ proc, p.state = K.RUNNING) →
      (sigchld_jobstate K proc = K.STOPPED ↔ ∃ p ∈ proc, p.state = K.STOPPED)) ∧
    ((¬ ∃ p ∈ proc, p.state = K.RUNNING) → (¬ ∃ p ∈ proc, p.state = K.STOPPED) →
      sigchld_jobstate K proc = K.FINISHED) := by
  obtain ⟨h1, h2, h3⟩ := hK
  by_cases hr : ∃ p ∈ proc, p.state = K.RUNNING
  · have : proc.any (fun p => decide (p.state = K.RUNNING)) = true := by
      simpa [List.any_eq_true] using hr
    simp [sigchld_jobstate, this, hr]
  · have hr' : proc.any (fun p => decide (p.state = K.RUNNING)) = false := by
      simpa [List.any_eq_false] using hr
    by_cases hs : ∃ p ∈ proc, p.state = K.STOPPED
    · have : proc.any (fun p => decide (p.state = K.STOPPED)) = true := by
        simpa [List.any_eq_true] using hs
      simp [sigchld_jobstate, this, hr', hr, hs, Ne.symm h1]
    · have hs' : proc.any (fun p => decide (p.state = K.STOPPED)) = false := by
        simpa [List.any_eq_false] using hs
      simp [sigchld_jobstate, hs', hr', hr, hs, Ne.symm h2, Ne.symm h3]

/-- C1: when `waitpid` reports `(pid, status)` and `job` is the job that owns
`pid` (the first slot, in table order, with a process of that pid: the one the
handler locates), then after the handler's update the slot still holds the
same processes (same pids, the matching record updated), and its state is
RUNNING iff some member process is RUNNING; otherwise it is STOPPED iff some
member is STOPPED; otherwise it is FINISHED. -/
theorem sigchld_reap_job_state (K : shell_h) (hK : K.distinct) (pid status : Int)
    (jobs : List job_t) (i : Nat) (job : job_t)
    (hjob : jobs[i]? = some job) (hpid : pid ∈ job.pids)
    (hfirst : ∀ k jk, k < i → jobs[k]? = some jk → pid ∉ jk.pids) :
    ∃ job', (sigchld_reap K pid status jobs)[i]? = some job' ∧
      sigchld_scan_proc K pid status job.proc = some job'.proc ∧
      job'.pids = job.pids ∧
      (job'.state = K.RUNNING ↔ job'.has_proc_in K.RUNNING) ∧
      (¬ job'.has_proc_in K.RUNNING →
        (job'.state = K.STOPPED ↔ job'.has_proc_in K.STOPPED)) ∧
      (¬ job'.has_proc_in K.RUNNING → ¬ job'.has_proc_in K.STOPPED →
        job'.state = K.FINISHED) := by
  induction jobs generalizing i with
  | nil => simp at hjob
  | cons j0 rest ih =>
    cases i with
    | zero =>
      simp at hjob
      subst hjob
      have hsome : sigchld_scan_proc K pid status j0.proc ≠ none := by
        rw [Ne, sigchld_scan_proc_none]; simpa [job_t.pids] using hpid
      obtain ⟨ps, hps⟩ := Option.ne_none_iff_exists'.mp hsome
      refine ⟨{ j0 with proc := ps, state := sigchld_jobstate K ps }, ?_, hps, ?_, ?_⟩
      · simp [sigchld_reap, hps]
      · simpa [job_t.pids] using sigchld_scan_proc_pids K pid status _ _ hps
      · exact sigchld_jobstate_spec K hK ps
    | succ i =>
      simp at hjob
      have h0 : sigchld_scan_proc K pid status j0.proc = none := by
        rw [sigchld_scan_proc_none]
        have := hfirst 0 j0 (Nat.succ_pos i) (by simp)
        simpa [job_t.pids] using this
      obtain ⟨job', h1, h2⟩ := ih i (by simpa using hjob)
        (fun k jk hk hjk => hfirst (k + 1) jk (Nat.succ_lt_succ hk) (by simpa using hjk))
      exact ⟨job', by simpa [sigchld_reap, h0] using h1, h2⟩

theorem sigchld_reap_job_state_witness :
    ∃ job', (sigchld_reap K0 7 0x147f
        [zero_job, ⟨5, [⟨5, 1, -1⟩, ⟨7, 1, -1⟩], 0, 1, some "a | b"⟩])[1]? = some job' ∧
      sigchld_scan_proc K0 7 0x147f [⟨5, 1, -1⟩, ⟨7, 1, -1⟩] = some job'.proc ∧
      job'.pids = [5, 7] ∧
      (job'.state = K0.RUNNING ↔ job'.has_proc_in K0.RUNNING) ∧
      (¬ job'.has_proc_in K0.RUNNING →
        (job'.state = K0.STOPPED ↔ job'.has_proc_in K0.STOPPED)) ∧
      (¬ job'.has_proc_in K0.RUNNING → ¬ job'.has_proc_in K0.STOPPED →
        job'.state = K0.FINISHED) :=
  sigchld_reap_job_state K0 (by decide) 7 0x147f
    [zero_job, ⟨5, [⟨5, 1, -1⟩, ⟨7, 1, -1⟩], 0, 1, some "a | b"⟩] 1
    ⟨5, [⟨5, 1, -1⟩, ⟨7, 1, -1⟩], 0, 1, some "a | b"⟩ (by rfl) (by decide)
    (by
      intro k jk hk hjk
      have hk0 : k = 0 := by omega
      subst hk0
      simp at hjk
      subst hjk
      decide)

/-! ## `jobstate` -/

/-- C2: for an index `j` inside the table (whose job, when FINISHED, has at
least one process), `jobstate(j)` returns the state of job `j`; when that state
is FINISHED it stores the raw status of the last process and afterwards slot
`j` is free (pgid = 0, no processes, no command) while no other slot changed;
when the state is not FINISHED, `*statusp` and the table are left unchanged. -/
theorem jobstate_spec (K : shell_h) (jobs : List job_t) (j : Nat) (status : Int) (job : job_t)
    (hjob : jobs[j]? = some job) (hproc : job.state = K.FINISHED → job.proc ≠ []) :
    ∃ status' jobs', jobstate K jobs j status = some (job.state, status', jobs') ∧
      (job.state = K.FINISHED →
        (∃ last, job.proc.getLast? = some last ∧ status' = last.exitcode) ∧
        (∃ job', jobs'[j]? = some job' ∧ job'.free) ∧
        jobs'.length = jobs.length ∧ ∀ k, k ≠ j → jobs'[k]? = jobs[k]?) ∧
      (job.state ≠ K.FINISHED → status' = status ∧ jobs' = jobs) := by
  have hj : j < jobs.length := by
    rcases Nat.lt_or_ge j jobs.length with h | h
    · exact h
    · rw [List.getElem?_eq_none h] at hjob; cases hjob
  by_cases hfin : job.state = K.FINISHED
  · obtain ⟨last, hlast⟩ : ∃ last, job.proc.getLast? = some last := by
      cases hp : job.proc.getLast? with
      | none => exact absurd (List.getLast?_eq_none_iff.mp hp) (hproc hfin)
      | some l => exact ⟨l, rfl⟩
    refine ⟨last.exitcode, jobs.set j { job with pgid := 0, command := none, proc := [] }, ?_, ?_, ?_⟩
    · simp [jobstate, hjob, hfin, exitcode, deljob, hlast]
    · intro _
      refine ⟨⟨last, hlast, rfl⟩,
        ⟨{ job with pgid := 0, command := none, proc := [] }, ?_, ?_⟩, by simp, ?_⟩
      · rw [List.getElem?_set_self hj]
      · simp [job_t.free]
      · intro k hk
        rw [List.getElem?_set_ne (Ne.symm hk)]
    · intro h; exact absurd hfin h
  · refine ⟨status, jobs, ?_, ?_, ?_⟩
    · simp [jobstate, hjob, hfin]
    · intro h; exact absurd h hfin
    · intro _; exact ⟨rfl, rfl⟩

theorem jobstate_spec_witness :
    ∃ status' jobs', jobstate K0 ex_finished_table 0 77
        = some (ex_finished_job.state, status', jobs') ∧
      (ex_finished_job.state = K0.FINISHED →
        (∃ last, ex_finished_job.proc.getLast? = some last ∧ status' = last.exitcode) ∧
        (∃ job', jobs'[0]? = some job' ∧ job'.free) ∧
        jobs'.length = ex_finished_table.length ∧
        ∀ k, k ≠ 0 → jobs'[k]? = ex_finished_table[k]?) ∧
      (ex_finished_job.state ≠ K0.FINISHED → status' = 77 ∧ jobs' = ex_finished_table) :=
  jobstate_spec K0 ex_finished_table 0 77 ex_finished_job rfl (by decide)

/-! ## `allocjob` -/

theorem allocjob_scan_some (j0 : Nat) (slots : List job_t) (r : Nat)
    (h : allocjob_scan j0 slots = some r) :
    j0 ≤ r ∧ (∃ job, slots[r - j0]? = some job ∧ job.pgid = 0) ∧
      ∀ (k : Nat) (job : job_t), k < r - j0 → slots[k]? = some job → job.pgid ≠ 0 := by
  induction slots generalizing j0 with
  | nil => simp [allocjob_scan] at h
  | cons s rest ih =>
    by_cases hs : s.pgid = 0
    · simp [allocjob_scan, hs] at h
      subst h
      simp [hs]
    · simp [allocjob_scan, hs] at h
      obtain ⟨h1, ⟨job, h2, h3⟩, h4⟩ := ih (j0 + 1) h
      have e : r - j0 = (r - (j0 + 1)) + 1 := by omega
      refine ⟨by omega, ⟨job, ?_, h3⟩, ?_⟩
      · rw [e]; simpa using h2
      · intro k jb hk hjb
        cases k with
        | zero => simp at hjb; subst hjb; exact hs
        | succ k => exact h4 k jb (by omega) (by simpa using hjb)

theorem allocjob_scan_none (j0 : Nat) (slots : List job_t)
    (h : allocjob_scan j0 slots = none) :
    ∀ (k : Nat) (job : job_t), slots[k]? = some job → job.pgid ≠ 0 := by
  induction slots generalizing j0 with
  | nil => intro k job hk; simp at hk
  | cons s rest ih =>
    by_cases hs : s.pgid = 0
    · simp [allocjob_scan, hs] at h
    · simp [allocjob_scan, hs] at h
      intro k job hk
      cases k with
      | zero => simp at hk; subst hk; exact hs
      | succ k => exact ih (j0 + 1) h k job (by simpa using hk)

theorem getElem?_drop_BG (jobs : List job_t) (j : Nat) (hj : BG ≤ j) :
    (jobs.drop BG)[j - BG]? = jobs[j]? := by
  rw [List.getElem?_drop]; congr 1; omega

/-- C7: on a job table (which always has the foreground slot, so it is not
empty) `allocjob` never returns the foreground index 0; when some index
`j ≥ 1` has a free slot (pgid = 0) it returns the lowest such index and leaves
the table unchanged; otherwise it appends exactly one zeroed slot and returns
the index of that new slot. -/
theorem allocjob_spec (jobs : List job_t) (hne : jobs ≠ []) :
    (allocjob jobs).1 ≠ FG ∧
    ((∃ (j : Nat) (job : job_t), BG ≤ j ∧ jobs[j]? = some job ∧ job.pgid = 0) →
      (allocjob jobs).2 = jobs ∧ BG ≤ (allocjob jobs).1 ∧
      (∃ job, jobs[(allocjob jobs).1]? = some job ∧ job.pgid = 0) ∧
      ∀ (k : Nat) (job : job_t), BG ≤ k → k < (allocjob jobs).1 → jobs[k]? = some job → job.pgid ≠ 0) ∧
    ((¬ ∃ (j : Nat) (job : job_t), BG ≤ j ∧ jobs[j]? = some job ∧ job.pgid = 0) →
      (allocjob jobs).2 = jobs ++ [zero_job] ∧ (allocjob jobs).1 = jobs.length ∧
      (allocjob jobs).2[(allocjob jobs).1]? = some zero_job) := by
  have hlen : 0 < jobs.length := List.length_pos.mpr hne
  cases hscan : allocjob_scan BG (jobs.drop BG) with
  | none =>
    have e : allocjob jobs = (jobs.length, jobs ++ [zero_job]) := by
      simp [allocjob, hscan]
    have hnone := allocjob_scan_none BG _ hscan
    have hno : ¬ ∃ (j : Nat) (job : job_t), BG ≤ j ∧ jobs[j]? = some job ∧ job.pgid = 0 := by
      rintro ⟨j, job, hj, hjob, hp⟩
      exact hnone (j - BG) job (by rw [getElem?_drop_BG jobs j hj]; exact hjob) hp
    rw [e]
    refine ⟨?_, fun h => absurd h hno, fun _ => ⟨rfl, rfl, ?_⟩⟩
    · show jobs.length ≠ 0
      omega
    · simp
  | some r =>
    have e : allocjob jobs = (r, jobs) := by
      simp [allocjob, hscan]
    obtain ⟨h1, ⟨job, h2, h3⟩, h4⟩ := allocjob_scan_some BG _ r hscan
    rw [getElem?_drop_BG jobs r h1] at h2
    rw [e]
    refine ⟨?_, fun _ => ⟨rfl, h1, ⟨job, h2, h3⟩, ?_⟩, fun hno => ?_⟩
    · show r ≠ 0
      have : 1 ≤ r := h1
      omega
    · intro k jb hk1 hk2 hjb
      refine h4 (k - BG) jb ?_ (by rw [getElem?_drop_BG jobs k hk1]; exact hjb)
      show k - BG < r - BG
      have : 1 ≤ k := hk1
      have : BG = 1 := rfl
      omega
    · exact absurd ⟨r, job, h1, h2, h3⟩ hno

theorem allocjob_spec_witness :
    (allocjob ex_table).1 ≠ FG ∧
    ((∃ (j : Nat) (job : job_t), BG ≤ j ∧ ex_table[j]? = some job ∧ job.pgid = 0) →
      (allocjob ex_table).2 = ex_table ∧ BG ≤ (allocjob ex_table).1 ∧
      (∃ job, ex_table[(allocjob ex_table).1]? = some job ∧ job.pgid = 0) ∧
      ∀ (k : Nat) (job : job_t), BG ≤ k → k < (allocjob ex_table).1 → ex_table[k]? = some job →
        job.pgid ≠ 0) ∧
    ((¬ ∃ (j : Nat) (job : job_t), BG ≤ j ∧ ex_table[j]? = some job ∧ job.pgid = 0) →
      (allocjob ex_table).2 = ex_table ++ [zero_job] ∧
      (allocjob ex_table).1 = ex_table.length ∧
      (allocjob ex_table).2[(allocjob ex_table).1]? = some zero_job) :=
  allocjob_spec ex_table (by decide)

theorem allocjob_lt (jobs : List job_t) :
    (allocjob jobs).1 < (allocjob jobs).2.length := by
  cases hscan : allocjob_scan BG (jobs.drop BG) with
  | none => simp [allocjob, hscan]
  | some r =>
    obtain ⟨h1, ⟨job, h2, _⟩, _⟩ := allocjob_scan_some BG _ r hscan
    rw [getElem?_drop_BG jobs r h1] at h2
    have : r < jobs.length := by
      rcases Nat.lt_or_ge r jobs.length with h | h
      · exact h
      · rw [List.getElem?_eq_none h] at h2; cases h2
    simpa [allocjob, hscan] using this

theorem addjob_lt (K : shell_h) (tm : Nat) (jobs : List job_t) (hne : jobs ≠ [])
    (pgid : Int) (bg : Bool) :
    (addjob K tm jobs pgid bg).1 < (addjob K tm jobs pgid bg).2.length := by
  cases bg with
  | true => simpa [addjob] using allocjob_lt jobs
  | false => simpa [addjob, FG] using List.length_pos.mpr hne

theorem addjob_slot (K : shell_h) (tm : Nat) (jobs : List job_t) (hne : jobs ≠ [])
    (pgid : Int) (bg : Bool) :
    (addjob K tm jobs pgid bg).2[(addjob K tm jobs pgid bg).1]?
      = some ⟨pgid, [], tm, K.RUNNING, none⟩ := by
  cases bg with
  | true =>
    simp only [addjob, if_true]
    exact List.getElem?_set_self (allocjob_lt jobs)
  | false =>
    simp only [addjob, Bool.false_eq_true, if_false]
    exact List.getElem?_set_self (by simpa [FG] using List.length_pos.mpr hne)

/-! ## `watchjobs` -/

theorem finished_msg_finished (j : Nat) (c : Option String) (w : Int) :
    (finished_msg j c w).finished? = some j := by
  unfold finished_msg
  split
  · rfl
  · split <;> rfl

theorem watchjobs_loop_spec (K : shell_h) (hK : K.distinct) (which : Int)
    (hw : which = K.FINISHED ∨ which = K.ALL) (j0 : Nat) (slots : List job_t)
    (hproc : ∀ (k : Nat) (job : job_t), slots[k]? = some job → job.pgid ≠ 0 →
      job.state = K.FINISHED → job.proc ≠ [])
    (hstate : which = K.ALL → ∀ (k : Nat) (job : job_t), slots[k]? = some job → job.pgid ≠ 0 →
      job.state = K.RUNNING ∨ job.state = K.STOPPED ∨ job.state = K.FINISHED) :
    ∃ out slots', watchjobs_loop K which j0 slots = some (out, slots') ∧
      slots'.length = slots.length ∧
      (∀ m ∈ out, ∀ j, m.finished? = some j →
        j0 ≤ j ∧ ∃ job, slots[j - j0]? = some job ∧ job.pgid ≠ 0 ∧ job.state = K.FINISHED) ∧
      ∀ (k : Nat) (job : job_t), slots[k]? = some job →
        ((job.pgid ≠ 0 ∧ job.state = K.FINISHED) →
          (∃ m ∈ out, m.finished? = some (j0 + k)) ∧ ∃ job', slots'[k]? = some job' ∧ job'.free) ∧
        (¬ (job.pgid ≠ 0 ∧ job.state = K.FINISHED) → slots'[k]? = some job) := by
  obtain ⟨hRS, hRF, hSF⟩ := hK
  induction slots generalizing j0 with
  | nil => exact ⟨[], [], rfl, rfl, by simp, by simp⟩
  | cons s rest ih =>
    obtain ⟨out, slots', hloop, hlen, hout, hslots⟩ := ih (j0 + 1)
      (fun k job hk => hproc (k + 1) job (by simpa using hk))
      (fun ha k job hk => hstate ha (k + 1) job (by simpa using hk))
    -- what the recursive call gives for the tail, shifted by one slot
    have hout' : ∀ m ∈ out, ∀ j, m.finished? = some j →
        j0 ≤ j ∧ ∃ job, (s :: rest)[j - j0]? = some job ∧ job.pgid ≠ 0 ∧
          job.state = K.FINISHED := by
      intro m hm j hj
      obtain ⟨h1, job, h2, h3⟩ := hout m hm j hj
      have e : j - j0 = (j - (j0 + 1)) + 1 := by omega
      exact ⟨by omega, job, by rw [e]; simpa using h2, h3⟩
    -- the head slot is kept as it is, possibly with a line that is not a FINISHED line
    have keep : ∀ (pre : List msg_t), (∀ m ∈ pre, m.finished? = none) →
        ¬ (s.pgid ≠ 0 ∧ s.state = K.FINISHED) →
        watchjobs_loop K which j0 (s :: rest) = some (pre ++ out, s :: slots') →
        ∃ out slots', watchjobs_loop K which j0 (s :: rest) = some (out, slots') ∧
          slots'.length = (s :: rest).length ∧
          (∀ m ∈ out, ∀ j, m.finished? = some j →
            j0 ≤ j ∧ ∃ job, (s :: rest)[j - j0]? = some job ∧ job.pgid ≠ 0 ∧
              job.state = K.FINISHED) ∧
          ∀ (k : Nat) (job : job_t), (s :: rest)[k]? = some job →
            ((job.pgid ≠ 0 ∧ job.state = K.FINISHED) →
              (∃ m ∈ out, m.finished? = some (j0 + k)) ∧
                ∃ job', slots'[k]? = some job' ∧ job'.free) ∧
            (¬ (job.pgid ≠ 0 ∧ job.state = K.FINISHED) → slots'[k]? = some job) := by
      intro pre hpre hs he
      refine ⟨pre ++ out, s :: slots', he, by simp [hlen], ?_, ?_⟩
      · intro m hm j hj
        rcases List.mem_append.mp hm with h | h
        · rw [hpre m h] at hj; cases hj
        · exact hout' m h j hj
      · intro k job hk
        cases k with
        | zero =>
          simp at hk; subst hk
          exact ⟨fun h => absurd h hs, fun _ => by simp⟩
        | succ k =>
          obtain ⟨h1, h2⟩ := hslots k job (by simpa using hk)
          refine ⟨fun h => ?_, fun h => by simpa using h2 h⟩
          obtain ⟨⟨m, hm, hmj⟩, h4⟩ := h1 h
          refine ⟨⟨m, List.mem_append.mpr (Or.inr hm), ?_⟩, by simpa using h4⟩
          rw [hmj]; congr 1; omega
    by_cases hp : s.pgid = 0
    · exact keep [] (by simp) (by simp [hp])
        (by simp only [watchjobs_loop, if_pos hp, hloop, Option.map_some', List.nil_append])
    by_cases hskip : s.state ≠ which ∧ which ≠ K.ALL
    · have hwf : which = K.FINISHED := hw.resolve_right hskip.2
      exact keep [] (by simp) (by rw [← hwf]; exact fun h => hskip.1 h.2)
        (by simp only [watchjobs_loop, if_neg hp, if_pos hskip, hloop, Option.map_some',
              List.nil_append])
    by_cases hr : s.state = K.RUNNING
    · exact keep [msg_t.running j0 s.command] (by simp [msg_t.finished?])
        (by rw [hr]; exact fun h => hRF h.2)
        (by simp only [watchjobs_loop, if_neg hp, if_neg hskip, if_pos hr, hloop,
              Option.map_some', List.singleton_append])
    by_cases hst : s.state = K.STOPPED
    · exact keep [msg_t.suspended j0 s.command] (by simp [msg_t.finished?])
        (by rw [hst]; exact fun h => hSF h.2)
        (by simp only [watchjobs_loop, if_neg hp, if_neg hskip, if_neg hr, if_pos hst, hloop,
              Option.map_some', List.singleton_append])
    -- the head slot holds a FINISHED job
    have hfin : s.state = K.FINISHED := by
      rcases hw with h | h
      · by_cases hs : s.state = which
        · rw [hs, h]
        · by_cases ha : which = K.ALL
          · rcases hstate ha 0 s (by simp) hp with h1 | h1 | h1
            · exact absurd h1 hr
            · exact absurd h1 hst
            · exact h1
          · exact absurd ⟨hs, ha⟩ hskip
      · rcases hstate h 0 s (by simp) hp with h1 | h1 | h1
        · exact absurd h1 hr
        · exact absurd h1 hst
        · exact h1
    obtain ⟨last, hlast⟩ : ∃ last, s.proc.getLast? = some last := by
      cases hl : s.proc.getLast? with
      | none => exact absurd (List.getLast?_eq_none_iff.mp hl) (hproc 0 s (by simp) hp hfin)
      | some l => exact ⟨l, rfl⟩
    have he : watchjobs_loop K which j0 (s :: rest)
        = some (finished_msg j0 s.command last.exitcode :: out,
            { s with pgid := 0, command := none, proc := [] } :: slots') := by
      simp only [watchjobs_loop, if_neg hp, if_neg hskip, if_neg hr, if_neg hst, hloop,
        exitcode, hlast, deljob, if_pos hfin, Option.map_some']
    refine ⟨_, _, he, by simp [hlen], ?_, ?_⟩
    · intro m hm j hj
      rcases List.mem_cons.mp hm with h | h
      · subst h
        rw [finished_msg_finished] at hj
        cases hj
        exact ⟨Nat.le_refl _, s, by simp, hp, hfin⟩
      · exact hout' m h j hj
    · intro k job hk
      cases k with
      | zero =>
        simp at hk; subst hk
        refine ⟨fun _ => ⟨⟨_, List.mem_cons_self _ _, by rw [finished_msg_finished]; rfl⟩,
          ⟨{ s with pgid := 0, command := none, proc := [] }, by simp, ?_⟩⟩,
          fun h => absurd ⟨hp, hfin⟩ h⟩
        simp [job_t.free]
      | succ k =>
        obtain ⟨h1, h2⟩ := hslots k job (by simpa using hk)
        refine ⟨fun h => ?_, fun h => by simpa using h2 h⟩
        obtain ⟨⟨m, hm, hmj⟩, h4⟩ := h1 h
        refine ⟨⟨m, List.mem_cons_of_mem _ hm, ?_⟩, by simpa using h4⟩
        rw [hmj]; congr 1; omega

/-- C3: for `which = FINISHED` and for `which = ALL` (the table holding jobs
whose state is one of the three states and whose FINISHED jobs have a process),
`watchjobs(which)` returns; the jobs it reports as FINISHED are exactly the
occupied background slots whose state is FINISHED; each of them is absent
afterwards (its slot has pgid = 0, no processes and no command); and every job
that is not FINISHED is left unchanged. -/
theorem watchjobs_spec (K : shell_h) (hK : K.distinct) (which : Int)
    (hw : which = K.FINISHED ∨ which = K.ALL) (jobs : List job_t)
    (hproc : ∀ (j : Nat) (job : job_t), BG ≤ j → jobs[j]? = some job → job.pgid ≠ 0 →
      job.state = K.FINISHED → job.proc ≠ [])
    (hstate : which = K.ALL → ∀ (j : Nat) (job : job_t), BG ≤ j → jobs[j]? = some job →
      job.pgid ≠ 0 →
      job.state = K.RUNNING ∨ job.state = K.STOPPED ∨ job.state = K.FINISHED) :
    ∃ out jobs', watchjobs K which jobs = some (out, jobs') ∧
      jobs'.length = jobs.length ∧
      ∀ (j : Nat) (job : job_t), jobs[j]? = some job →
        ((∃ m ∈ out, m.finished? = some j) ↔
          (BG ≤ j ∧ job.pgid ≠ 0 ∧ job.state = K.FINISHED)) ∧
        ((∃ m ∈ out, m.finished? = some j) → ∃ job', jobs'[j]? = some job' ∧ job'.free) ∧
        (job.state ≠ K.FINISHED → jobs'[j]? = some job) := by
  have hBG : BG = 1 := rfl
  obtain ⟨out, slots', hloop, hlen, hout, hslots⟩ :=
    watchjobs_loop_spec K hK which hw BG (jobs.drop BG)
      (fun k job hk => hproc (k + BG) job (Nat.le_add_left _ _)
        (by rw [List.getElem?_drop, Nat.add_comm] at hk; exact hk))
      (fun ha k job hk => hstate ha (k + BG) job (Nat.le_add_left _ _)
        (by rw [List.getElem?_drop, Nat.add_comm] at hk; exact hk))
  refine ⟨out, jobs.take BG ++ slots', by simp [watchjobs, hloop], ?_, ?_⟩
  · simp only [List.length_append, List.length_take, List.length_drop, hlen] at *
    omega
  · intro j job hjob
    have hj : j < jobs.length := by
      rcases Nat.lt_or_ge j jobs.length with h | h
      · exact h
      · rw [List.getElem?_eq_none h] at hjob; cases hjob
    by_cases hjb : BG ≤ j
    · have htake : (jobs.take BG).length = BG := by
        rw [List.length_take]; omega
      have hidx : (jobs.take BG ++ slots')[j]? = slots'[j - BG]? := by
        rw [List.getElem?_append_right (by omega), htake]
      have hk : (jobs.drop BG)[j - BG]? = some job := by
        rw [getElem?_drop_BG jobs j hjb]; exact hjob
      obtain ⟨h1, h2⟩ := hslots (j - BG) job hk
      have e : BG + (j - BG) = j := by omega
      rw [e] at h1
      have hiff : (∃ m ∈ out, m.finished? = some j) ↔
          (BG ≤ j ∧ job.pgid ≠ 0 ∧ job.state = K.FINISHED) := by
        constructor
        · rintro ⟨m, hm, hmj⟩
          obtain ⟨_, job2, hj2, hp2⟩ := hout m hm j hmj
          rw [hk] at hj2
          cases hj2
          exact ⟨hjb, hp2⟩
        · intro h
          exact (h1 h.2).1
      refine ⟨hiff, fun h => ?_, fun h => ?_⟩
      · rw [hidx]
        exact (h1 (hiff.mp h).2).2
      · rw [hidx]
        exact h2 (fun hh => h hh.2)
    · have hj0 : j = 0 := by omega
      subst hj0
      have hnone : ¬ ∃ m ∈ out, m.finished? = some 0 := by
        rintro ⟨m, hm, hmj⟩
        have := (hout m hm 0 hmj).1
        omega
      refine ⟨⟨fun h => absurd h hnone, fun h => absurd h.1 hjb⟩,
        fun h => absurd h hnone, fun _ => ?_⟩
      rw [List.getElem?_append_left (by rw [List.length_take]; omega)]
      rw [List.getElem?_take_of_lt (by omega)]
      exact hjob

theorem watchjobs_spec_witness :
    ∃ out jobs', watchjobs K0 K0.ALL ex_table = some (out, jobs') ∧
      jobs'.length = ex_table.length ∧
      ∀ (j : Nat) (job : job_t), ex_table[j]? = some job →
        ((∃ m ∈ out, m.finished? = some j) ↔
          (BG ≤ j ∧ job.pgid ≠ 0 ∧ job.state = K0.FINISHED)) ∧
        ((∃ m ∈ out, m.finished? = some j) → ∃ job', jobs'[j]? = some job' ∧ job'.free) ∧
        (job.state ≠ K0.FINISHED → jobs'[j]? = some job) :=
  watchjobs_spec K0 (by decide) K0.ALL (Or.inr rfl) ex_table
    (by
      intro j job _ hjob
      have hmem : job ∈ ex_table := List.getElem?_mem hjob
      simp only [ex_table, List.mem_cons, List.mem_singleton, List.not_mem_nil, or_false] at hmem
      rcases hmem with h | h | h | h | h <;> subst h <;> decide)
    (by
      intro _ j job _ hjob
      have hmem : job ∈ ex_table := List.getElem?_mem hjob
      simp only [ex_table, List.mem_cons, List.mem_singleton, List.not_mem_nil, or_false] at hmem
      rcases hmem with h | h | h | h | h <;> subst h <;> decide)

/-! ## `mkcommand` and `addproc` -/

theorem intercalate_go_eq_foldl (sep : String) (l : List String) (acc : String) :
    String.intercalate.go acc sep l = l.foldl (fun r a => r ++ sep ++ a) acc := by
  induction l generalizing acc with
  | nil => rfl
  | cons a l ih => simp [String.intercalate.go, ih]

theorem foldl_sep_append (sep : String) (l : List String) (c acc : String) :
    l.foldl (fun r a => r ++ sep ++ a) (c ++ acc) = c ++ l.foldl (fun r a => r ++ sep ++ a) acc := by
  induction l generalizing acc with
  | nil => rfl
  | cons a l ih =>
    simp only [List.foldl_cons]
    rw [String.append_assoc, String.append_assoc, ← String.append_assoc acc, ih]

theorem mkcommand_rest_some (c : String) (argv : List String) :
    mkcommand_rest (some c) argv = some (argv.foldl (fun r a => r ++ " " ++ a) c) := by
  induction argv generalizing c with
  | nil => rfl
  | cons a argv ih => simp [mkcommand_rest, strapp, ih]

theorem mkcommand_none (argv : List String) (h : argv ≠ []) :
    mkcommand none argv = some (" ".intercalate argv) := by
  cases argv with
  | nil => exact absurd rfl h
  | cons a argv =>
    simp [mkcommand, strapp, mkcommand_rest_some, String.intercalate, intercalate_go_eq_foldl]

theorem mkcommand_some (c : String) (argv : List String) (h : argv ≠ []) :
    mkcommand (some c) argv = some (c ++ " | " ++ " ".intercalate argv) := by
  cases argv with
  | nil => exact absurd rfl h
  | cons a argv =>
    simp only [mkcommand, Option.isSome_some, if_true, strapp, mkcommand_rest_some,
      String.intercalate, intercalate_go_eq_foldl]
    rw [String.append_assoc, foldl_sep_append, foldl_sep_append, String.append_assoc]

theorem addprocs_command (K : shell_h) (j : Nat) (stages : List (Int × List String))
    (hargs : ∀ st ∈ stages, st.2 ≠ []) (jobs : List job_t) (job : job_t) (c : String)
    (hjob : jobs[j]? = some job) (hc : job.command = some c) :
    ∃ jobs' job', addprocs K jobs j stages = some jobs' ∧ jobs'[j]? = some job' ∧
      job'.command = some ((stages.map (fun st => " ".intercalate st.2)).foldl
        (fun r a => r ++ " | " ++ a) c) := by
  induction stages generalizing jobs job c with
  | nil => exact ⟨jobs, job, rfl, hjob, by simpa using hc⟩
  | cons st stages ih =>
    obtain ⟨pid, argv⟩ := st
    have hj : j < jobs.length := by
      rcases Nat.lt_or_ge j jobs.length with h | h
      · exact h
      · rw [List.getElem?_eq_none h] at hjob; cases hjob
    have ha : argv ≠ [] := hargs (pid, argv) (List.mem_cons_self _ _)
    have h1 : addproc K jobs j pid argv = some (jobs.set j
        { job with proc := job.proc ++ [⟨pid, K.RUNNING, -1⟩],
                   command := some (c ++ " | " ++ " ".intercalate argv) }) := by
      simp [addproc, hjob, hc, mkcommand_some c argv ha]
    obtain ⟨jobs', job', h2, h3, h4⟩ := ih
      (fun st hst => hargs st (List.mem_cons_of_mem _ hst)) _
      { job with proc := job.proc ++ [⟨pid, K.RUNNING, -1⟩],
                 command := some (c ++ " | " ++ " ".intercalate argv) }
      (c ++ " | " ++ " ".intercalate argv) (List.getElem?_set_self hj) rfl
    exact ⟨jobs', job', by simp [addprocs, h1, h2], h3, by simpa using h4⟩

/-- C8: on a job freshly created by `addjob`, registering the non-empty
argument vectors `argv_1 .. argv_n` (n ≥ 1) with `addproc`, in that order,
succeeds and leaves the job's command string equal to the stages joined with
`" | "`, each stage being its arguments joined with a single space, with no
leading or trailing separator. -/
theorem addproc_command (K : shell_h) (tm : Nat) (jobs : List job_t) (hne : jobs ≠ [])
    (pgid : Int) (bg : Bool) (stages : List (Int × List String))
    (hstages : stages ≠ []) (hargs : ∀ st ∈ stages, st.2 ≠ []) :
    ∃ jobs' job',
      addprocs K (addjob K tm jobs pgid bg).2 (addjob K tm jobs pgid bg).1 stages = some jobs' ∧
      jobs'[(addjob K tm jobs pgid bg).1]? = some job' ∧
      job'.command = some (" | ".intercalate (stages.map (fun st => " ".intercalate st.2))) := by
  cases stages with
  | nil => exact absurd rfl hstages
  | cons st stages =>
    obtain ⟨pid, argv⟩ := st
    have ha : argv ≠ [] := hargs (pid, argv) (List.mem_cons_self _ _)
    have hslot := addjob_slot K tm jobs hne pgid bg
    have hlt := addjob_lt K tm jobs hne pgid bg
    have h1 : addproc K (addjob K tm jobs pgid bg).2 (addjob K tm jobs pgid bg).1 pid argv
        = some ((addjob K tm jobs pgid bg).2.set (addjob K tm jobs pgid bg).1
            ⟨pgid, [⟨pid, K.RUNNING, -1⟩], tm, K.RUNNING, some (" ".intercalate argv)⟩) := by
      simp [addproc, hslot, mkcommand_none argv ha]
    obtain ⟨jobs', job', h2, h3, h4⟩ := addprocs_command K (addjob K tm jobs pgid bg).1 stages
      (fun st hst => hargs st (List.mem_cons_of_mem _ hst)) _
      ⟨pgid, [⟨pid, K.RUNNING, -1⟩], tm, K.RUNNING, some (" ".intercalate argv)⟩
      (" ".intercalate argv) (List.getElem?_set_self hlt) rfl
    refine ⟨jobs', job', by simp [addprocs, h1, h2], h3, ?_⟩
    rw [h4]
    simp [String.intercalate, intercalate_go_eq_foldl]

theorem addproc_command_witness :
    ∃ jobs' job',
      addprocs K0 (addjob K0 0 ex_table 21 true).2 (addjob K0 0 ex_table 21 true).1
        [(21, ["cat", "-n", "f"]), (22, ["grep", "x"]), (23, ["wc"])] = some jobs' ∧
      jobs'[(addjob K0 0 ex_table 21 true).1]? = some job' ∧
      job'.command = some (" | ".intercalate
        ([((21 : Int), ["cat", "-n", "f"]), (22, ["grep", "x"]), (23, ["wc"])].map
          (fun st => " ".intercalate st.2))) :=
  addproc_command K0 0 ex_table (by decide) 21 true
    [(21, ["cat", "-n", "f"]), (22, ["grep", "x"]), (23, ["wc"])] (by simp) (by simp)

/-! ## `monitorjob` -/

/-- C9 (the STOPPED half fails): the foreground job `sleep 100` is stopped while
`monitorjob` waits.  The wait loop ends with state STOPPED, the job is moved to
background slot 1, and `monitorjob` returns whatever value `e` its local
`exitcode` held on entry, not -1 (for instance 0 when `e = 0`). -/
theorem monitorjob_stopped_returns_uninitialised (e : Int) :
    ∃ s', monitorjob K0 e ex_fg_sys = .ok e s' ∧
      s'.jobs = [zero_job, ⟨5, [⟨5, 2, -1⟩], 0, 2, some "sleep 100"⟩] ∧
      s'.log = [.kill (-5) "SIGCONT", .msg (.suspended 1 (some "sleep 100"))] :=
  ⟨_, rfl, rfl, rfl⟩

/-- When the child exits with status 3 instead, `monitorjob` returns the raw
wait status `0x300` of the last process, whatever its local `exitcode` held on
entry. -/
theorem monitorjob_finished_returns_status (e : Int) :
    ∃ s', monitorjob K0 e ex_fg_exit_sys = .ok 0x300 s' ∧ s'.jobs = [
      ⟨0, [], 0, 0, none⟩] :=
  ⟨_, rfl, rfl⟩

/-! ## Descriptors -/

theorem fd_alloc_from_spec (fds : List Int) (fuel n : Nat) :
    (n : Int) ≤ fd_alloc_from fds fuel n ∧
    (fd_alloc_from fds fuel n ∉ fds ∨
      (fd_alloc_from fds fuel n = ((n + fuel : Nat) : Int) ∧
        ∀ k : Nat, n ≤ k → k < n + fuel → (k : Int) ∈ fds)) := by
  induction fuel generalizing n with
  | zero =>
    refine ⟨by simp [fd_alloc_from], Or.inr ⟨by simp [fd_alloc_from], ?_⟩⟩
    intro k h1 h2; omega
  | succ fuel ih =>
    by_cases h : (n : Int) ∈ fds
    · simp only [fd_alloc_from, if_pos h]
      obtain ⟨h1, h2⟩ := ih (n + 1)
      refine ⟨by push_cast at h1; omega, ?_⟩
      rcases h2 with h2 | ⟨h2, h3⟩
      · exact Or.inl h2
      · refine Or.inr ⟨by rw [h2]; congr 1; omega, ?_⟩
        intro k hk1 hk2
        by_cases hkn : k = n
        · subst hkn; exact h
        · exact h3 k (by omega) (by omega)
    · simp only [fd_alloc_from, if_neg h]
      exact ⟨le_refl _, Or.inl h⟩

theorem fd_alloc_nonneg (fds : List Int) : 0 ≤ fd_alloc fds := by
  have := (fd_alloc_from_spec fds fds.length 0).1
  simpa [fd_alloc] using this

theorem fd_alloc_fresh (fds : List Int) : fd_alloc fds ∉ fds := by
  rcases (fd_alloc_from_spec fds fds.length 0).2 with h | ⟨h1, h2⟩
  · exact h
  · -- all of `0 .. length-1` are open: they are all the open descriptors
    intro hmem
    have hsub : (List.range (fds.length + 1)).map (fun k : Nat => (k : Int)) ⊆ fds := by
      intro x hx
      simp only [List.mem_map, List.mem_range] at hx
      obtain ⟨k, hk, rfl⟩ := hx
      by_cases hkl : k < fds.length
      · exact h2 k (Nat.zero_le _) (by omega)
      · have : k = fds.length := by omega
        subst this
        simp only [fd_alloc, Nat.zero_add] at h1 hmem
        rw [h1] at hmem
        exact hmem
    have hnd : ((List.range (fds.length + 1)).map (fun k : Nat => (k : Int))).Nodup :=
      (List.nodup_range _).map (fun a b h => by simpa using h)
    have hlen := (List.subperm_of_subset hnd hsub).length_le
    simp at hlen

theorem fd_inv_perm {fds B own own' : List Int} (hp : own.Perm own')
    (h : fd_inv fds B own) : fd_inv fds B own' := by
  obtain ⟨h1, h2, h3⟩ := h
  refine ⟨fun x => ?_, fun x hx => h2 x (hp.mem_iff.mpr hx), ?_⟩
  · rw [h1 x, hp.mem_iff]
  · exact (hp.filter _).nodup_iff.mp h3

theorem fd_inv_drop_neg {fds B own : List Int} {a : Int} (ha : a < 0)
    (h : fd_inv fds B (a :: own)) : fd_inv fds B own := by
  obtain ⟨h1, h2, h3⟩ := h
  have hna : ¬ (0 ≤ a) := by omega
  refine ⟨fun x => ?_, fun x hx => h2 x (List.mem_cons_of_mem _ hx), ?_⟩
  · rw [h1 x]
    constructor
    · rintro (h | ⟨h, h0⟩)
      · exact Or.inl h
      · rcases List.mem_cons.mp h with rfl | h
        · exact absurd h0 hna
        · exact Or.inr ⟨h, h0⟩
    · rintro (h | ⟨h, h0⟩)
      · exact Or.inl h
      · exact Or.inr ⟨List.mem_cons_of_mem _ h, h0⟩
  · simpa [List.filter_cons, hna] using h3

theorem fd_inv_add_neg {fds B own : List Int} {a : Int} (ha : a < 0)
    (h : fd_inv fds B own) : fd_inv fds B (a :: own) := by
  obtain ⟨h1, h2, h3⟩ := h
  have hna : ¬ (0 ≤ a) := by omega
  refine ⟨fun x => ?_, fun x hx h0 => ?_, ?_⟩
  · rw [h1 x]
    constructor
    · rintro (h | ⟨h, h0⟩)
      · exact Or.inl h
      · exact Or.inr ⟨List.mem_cons_of_mem _ h, h0⟩
    · rintro (h | ⟨h, h0⟩)
      · exact Or.inl h
      · rcases List.mem_cons.mp h with rfl | h
        · exact absurd h0 hna
        · exact Or.inr ⟨h, h0⟩
  · rcases List.mem_cons.mp hx with rfl | hx
    · exact absurd h0 hna
    · exact h2 x hx h0
  · simpa [List.filter_cons, hna] using h3

theorem fd_inv_close {fds B own : List Int} {a : Int} (ha : 0 ≤ a)
    (h : fd_inv fds B (a :: own)) :
    a ∈ fds ∧ fd_inv (fds.filter (fun x => x ≠ a)) B own := by
  obtain ⟨h1, h2, h3⟩ := h
  have haB : a ∉ B := h2 a (List.mem_cons_self _ _) ha
  have hnd : a ∉ own.filter (fun x => decide (0 ≤ x)) ∧
      (own.filter (fun x => decide (0 ≤ x))).Nodup := by
    simpa [List.filter_cons, ha] using h3
  have hao : a ∉ own := fun hm => hnd.1 (List.mem_filter.mpr ⟨hm, by simpa using ha⟩)
  refine ⟨(h1 a).mpr (Or.inr ⟨List.mem_cons_self _ _, ha⟩), fun x => ?_,
    fun x hx => h2 x (List.mem_cons_of_mem _ hx), hnd.2⟩
  simp only [List.mem_filter, decide_eq_true_eq, h1 x, List.mem_cons, ne_eq, decide_not,
    Bool.not_eq_true', decide_eq_false_iff_not]
  constructor
  · rintro ⟨h | ⟨h | h, h0⟩, hne⟩
    · exact Or.inl h
    · exact absurd h hne
    · exact Or.inr ⟨h, h0⟩
  · rintro (h | ⟨h, h0⟩)
    · exact ⟨Or.inl h, fun e => haB (e ▸ h)⟩
    · exact ⟨Or.inr ⟨Or.inr h, h0⟩, fun e => hao (e ▸ h)⟩

theorem fd_inv_alloc {fds B own : List Int} (h : fd_inv fds B own) :
    fd_inv (fd_alloc fds :: fds) B (fd_alloc fds :: own) := by
  obtain ⟨h1, h2, h3⟩ := h
  have hf := fd_alloc_fresh fds
  have h0 := fd_alloc_nonneg fds
  have hfB : fd_alloc fds ∉ B := fun hm => hf ((h1 _).mpr (Or.inl hm))
  have hfo : fd_alloc fds ∉ own := fun hm => hf ((h1 _).mpr (Or.inr ⟨hm, h0⟩))
  refine ⟨fun x => ?_, fun x hx hx0 => ?_, ?_⟩
  · simp only [List.mem_cons, h1 x]
    constructor
    · rintro (h | h | ⟨h, hx0⟩)
      · exact Or.inr ⟨Or.inl h, h ▸ h0⟩
      · exact Or.inl h
      · exact Or.inr ⟨Or.inr h, hx0⟩
    · rintro (h | ⟨h | h, hx0⟩)
      · exact Or.inr (Or.inl h)
      · exact Or.inl h
      · exact Or.inr (Or.inr ⟨h, hx0⟩)
  · rcases List.mem_cons.mp hx with rfl | hx
    · exact hfB
    · exact h2 x hx hx0
  · rw [List.filter_cons, if_pos (by simpa using h0)]
    exact List.nodup_cons.mpr ⟨fun hm => hfo (List.mem_filter.mp hm).1, h3⟩

@[simp] theorem res_bind_ok {α β : Type} (a : α) (s : sys) (f : α → sys → res β) :
    (res.ok a s).bind f = f a s := rfl

@[simp] theorem res_bind_abort {α β : Type} (s : sys) (f : α → sys → res β) :
    (res.abort s : res α).bind f = .abort s := rfl

@[simp] theorem res_bind_blocked {α β : Type} (s : sys) (f : α → sys → res β) :
    (res.blocked s : res α).bind f = .blocked s := rfl

theorem fd_step_refl (s : sys) : fd_step s s :=
  ⟨[], by simp, by simp⟩

theorem fd_step_trans {s1 s2 s3 : sys} (h1 : fd_step s1 s2) (h2 : fd_step s2 s3) :
    fd_step s1 s3 := by
  obtain ⟨e1, he1, h1⟩ := h1
  obtain ⟨e2, he2, h2⟩ := h2
  refine ⟨e1 ++ e2, ?_, ?_⟩
  · intro e he
    rcases List.mem_append.mp he with h | h
    · exact he1 e h
    · exact he2 e h
  · rw [h2, h1]; simp

theorem fd_step_bind {α β : Type} (s : sys) (r : res α) (f : α → sys → res β)
    (h1 : fd_step s r.state) (h2 : ∀ a s', r = .ok a s' → fd_step s' (f a s').state) :
    fd_step s (r.bind f).state := by
  cases r with
  | ok a s' => exact fd_step_trans h1 (h2 a s' rfl)
  | abort s' => exact h1
  | blocked s' => exact h1

theorem fd_step_log (s : sys) (fds : List Int) (e : event_t) (he : e.is_fd_event = true) :
    fd_step s { s with fds := fds, log := s.log ++ [e] } :=
  ⟨[e], by simpa using he, rfl⟩

theorem fd_step_open (s : sys) (fds : List Int) (opens : List Bool) (e : event_t)
    (he : e.is_fd_event = true) :
    fd_step s { s with fds := fds, opens := opens, log := s.log ++ [e] } :=
  ⟨[e], by simpa using he, rfl⟩

theorem MaybeClose_step (a : Int) (s : sys) : fd_step s (MaybeClose a s).state := by
  unfold MaybeClose Close
  by_cases h : a < 0
  · simp [h, res.state, fd_step_refl]
  · by_cases hm : a ∈ s.fds
    · simp only [if_neg h, if_pos hm, res_bind_ok, res.state]
      exact fd_step_log s _ _ rfl
    · simp [if_neg h, if_neg hm, res.state, fd_step_refl]

theorem MaybeClose_ok {B own : List Int} (a : Int) (s : sys)
    (h : fd_inv s.fds B (a :: own)) :
    ∃ a' s', MaybeClose a s = .ok a' s' ∧ a' < 0 ∧ fd_inv s'.fds B own ∧
      s' = { s with fds := s'.fds, log := s.log ++ (if 0 ≤ a then [.close a] else []) } := by
  unfold MaybeClose Close
  by_cases ha : a < 0
  · refine ⟨a, s, by simp [ha], ha, fd_inv_drop_neg ha h, ?_⟩
    have : ¬ 0 ≤ a := by omega
    simp [this]
  · have h0 : 0 ≤ a := by omega
    obtain ⟨hm, hinv⟩ := fd_inv_close h0 h
    refine ⟨-1, { s with fds := s.fds.filter (fun x => x ≠ a), log := s.log ++ [.close a] },
      by simp only [if_neg ha, if_pos hm, res_bind_ok], by omega, hinv, by simp [h0]⟩

theorem Open_rd_step (path : String) (s : sys) : fd_step s (Open_rd path s).state := by
  unfold Open_rd
  split
  · exact fd_step_open s _ _ _ rfl
  · exact fd_step_refl s

theorem Open_wr_step (path : String) (s : sys) : fd_step s (Open_wr path s).state := by
  unfold Open_wr
  split
  · exact fd_step_open s _ _ _ rfl
  · exact fd_step_refl s

theorem do_redir_open_step (mode : token_t) (path : String) (input output : Int) (s : sys) :
    fd_step s (do_redir_open mode path input output s).state := by
  unfold do_redir_open
  split
  · refine fd_step_bind _ _ _ (MaybeClose_step _ _) (fun a s' _ => ?_)
    refine fd_step_bind _ _ _ (Open_rd_step _ _) (fun fd s'' _ => ?_)
    exact fd_step_refl s''
  · refine fd_step_bind _ _ _ (MaybeClose_step _ _) (fun a s' _ => ?_)
    refine fd_step_bind _ _ _ (Open_wr_step _ _) (fun fd s'' _ => ?_)
    exact fd_step_refl s''

/-- The opening of one redirection when `open` succeeds, the descriptors of the
stage being `input` and `output`. -/
theorem do_redir_open_ok {B : List Int} (mode : token_t) (path : String) (input output : Int)
    (s : sys) (later : List Bool) (h : fd_inv s.fds B [input, output])
    (hop : s.opens = true :: later) :
    ∃ input' output' s', do_redir_open mode path input output s = .ok (input', output') s' ∧
      fd_inv s'.fds B [input', output'] ∧
      (mode = .T_INPUT → output' = output ∧ 0 ≤ input' ∧
        s' = { s with fds := s'.fds, opens := later, log := s.log ++
          ((if 0 ≤ input then [.close input] else []) ++ [.open_rd path input']) }) ∧
      (mode ≠ .T_INPUT → input' = input ∧ 0 ≤ output' ∧
        s' = { s with fds := s'.fds, opens := later, log := s.log ++
          ((if 0 ≤ output then [.close output] else []) ++ [.open_wr path output']) }) := by
  unfold do_redir_open
  by_cases hm : mode = .T_INPUT
  · obtain ⟨a', s1, h1, _, h2, h3⟩ := MaybeClose_ok input s h
    have hop1 : s1.opens = true :: later := by rw [h3]; exact hop
    refine ⟨fd_alloc s1.fds, output,
      { s1 with fds := fd_alloc s1.fds :: s1.fds
                opens := later
                log := s1.log ++ [.open_rd path (fd_alloc s1.fds)] },
      ?_, fd_inv_alloc h2, ?_, ?_⟩
    · simp only [if_pos hm, h1, res_bind_ok, Open_rd, hop1]
    · intro _
      refine ⟨rfl, fd_alloc_nonneg _, ?_⟩
      rw [h3]; simp
    · intro h; exact absurd hm h
  · obtain ⟨a', s1, h1, _, h2, h3⟩ := MaybeClose_ok output s
      (fd_inv_perm (List.Perm.swap _ _ _) h)
    have hop1 : s1.opens = true :: later := by rw [h3]; exact hop
    refine ⟨input, fd_alloc s1.fds,
      { s1 with fds := fd_alloc s1.fds :: s1.fds
                opens := later
                log := s1.log ++ [.open_wr path (fd_alloc s1.fds)] },
      ?_, fd_inv_perm (List.Perm.swap _ _ _) (fd_inv_alloc h2), ?_, ?_⟩
    · simp only [if_neg hm, h1, res_bind_ok, Open_wr, hop1]
    · intro h; exact absurd h hm
    · intro _
      refine ⟨rfl, fd_alloc_nonneg _, ?_⟩
      rw [h3]; simp

/-- The opening of one redirection when `open` fails: the shell ends there. -/
theorem do_redir_open_fails {B : List Int} (mode : token_t) (path : String)
    (input output : Int) (s : sys) (h : fd_inv s.fds B [input, output])
    (hop : ∀ later, s.opens ≠ true :: later) :
    ∃ s', do_redir_open mode path input output s = .abort s' := by
  have key : ∀ s1 : sys, s1.opens = s.opens →
      Open_rd path s1 = .abort s1 ∧ Open_wr path s1 = .abort s1 := by
    intro s1 h1
    unfold Open_rd Open_wr
    rw [h1]
    cases hs : s.opens with
    | nil => exact ⟨rfl, rfl⟩
    | cons b l =>
      cases b with
      | true => exact absurd hs (hop l)
      | false => exact ⟨rfl, rfl⟩
  unfold do_redir_open
  by_cases hm : mode = .T_INPUT
  · obtain ⟨a', s1, h1, _, _, h3⟩ := MaybeClose_ok input s h
    have hop1 : s1.opens = s.opens := by rw [h3]
    exact ⟨s1, by simp only [if_pos hm, h1, res_bind_ok, (key s1 hop1).1, res_bind_abort]⟩
  · obtain ⟨a', s1, h1, _, _, h3⟩ := MaybeClose_ok output s
      (fd_inv_perm (List.Perm.swap _ _ _) h)
    have hop1 : s1.opens = s.opens := by rw [h3]
    exact ⟨s1, by simp only [if_neg hm, h1, res_bind_ok, (key s1 hop1).2, res_bind_abort]⟩

/-- The opening of one redirection never waits: it returns or the shell ends. -/
theorem do_redir_open_result {B : List Int} (mode : token_t) (path : String)
    (input output : Int) (s : sys) (h : fd_inv s.fds B [input, output]) :
    (∃ s', do_redir_open mode path input output s = .abort s') ∨
    (∃ input' output' s', do_redir_open mode path input output s = .ok (input', output') s' ∧
      fd_inv s'.fds B [input', output']) := by
  cases hs : s.opens with
  | nil =>
    exact Or.inl (do_redir_open_fails mode path input output s h (fun l e => by
      rw [hs] at e; cases e))
  | cons b l =>
    cases b with
    | true =>
      obtain ⟨i1, o1, s1, h1, h2, _⟩ := do_redir_open_ok mode path input output s l h hs
      exact Or.inr ⟨i1, o1, s1, h1, h2⟩
    | false =>
      exact Or.inl (do_redir_open_fails mode path input output s h (fun l e => by
        rw [hs] at e; cases e))

theorem do_redir_loop_fd (base fuel : Nat) (token : List token_t) (i ntokens : Nat)
    (input output : Int) (s : sys) :
    fd_step s (do_redir_loop base fuel token i ntokens input output s).state ∧
    ∀ B, fd_inv s.fds B [input, output] →
      ∀ n token' input' output' s',
        do_redir_loop base fuel token i ntokens input output s
          = .ok (n, token', input', output') s' →
        fd_inv s'.fds B [input', output'] := by
  induction fuel generalizing token i ntokens input output s with
  | zero =>
    refine ⟨by simp [do_redir_loop, res.state, fd_step_refl], ?_⟩
    intro B _ n token' input' output' s' h
    simp [do_redir_loop] at h
  | succ fuel ih =>
    rw [do_redir_loop]
    by_cases hi : i < ntokens
    · rw [if_pos hi]
      cases hmode : token[base + i]? with
      | none =>
        refine ⟨by simp [res.state, fd_step_refl], ?_⟩
        intro B _ n token' input' output' s' h
        simp at h
      | some mode =>
        simp only []
        by_cases hnull : mode = .T_NULL
        · rw [if_pos hnull]
          refine ⟨by simp [res.state, fd_step_refl], ?_⟩
          intro B hB n token' input' output' s' h
          simp only [res.ok.injEq, Prod.mk.injEq] at h
          obtain ⟨⟨_, _, rfl, rfl⟩, rfl⟩ := h
          exact hB
        · rw [if_neg hnull]
          by_cases hredir : mode = .T_INPUT ∨ mode = .T_OUTPUT
          · rw [if_pos hredir]
            by_cases hi1 : i + 1 < ntokens
            · rw [if_pos hi1]
              cases hnext : token[base + (i + 1)]? with
              | none =>
                refine ⟨by simp [res.state, fd_step_refl], ?_⟩
                intro B _ n token' input' output' s' h
                simp at h
              | some next =>
                cases next with
                | word path =>
                  simp only []
                  refine ⟨fd_step_bind _ _ _ (do_redir_open_step _ _ _ _ _)
                    (fun io s1 _ => (ih _ _ _ _ _ _).1), ?_⟩
                  intro B hB n token' input' output' s' h
                  rcases do_redir_open_result mode path input output s hB with
                    ⟨s1, h1⟩ | ⟨i1, o1, s1, h1, h2⟩
                  · rw [h1] at h; simp at h
                  · rw [h1, res_bind_ok] at h
                    exact (ih _ _ _ _ _ _).2 B h2 n token' input' output' s' h
                | _ =>
                  refine ⟨by simp [res.state, fd_step_refl], ?_⟩
                  intro B _ n token' input' output' s' h
                  simp at h
            · rw [if_neg hi1]
              refine ⟨by simp [res.state, fd_step_refl], ?_⟩
              intro B _ n token' input' output' s' h
              simp at h
          · rw [if_neg hredir]
            exact ih _ _ _ _ _ _
    · rw [if_neg hi]
      refine ⟨by simp [res.state, fd_step_refl], ?_⟩
      intro B hB n token' input' output' s' h
      simp only [res.ok.injEq, Prod.mk.injEq] at h
      obtain ⟨⟨_, _, rfl, rfl⟩, rfl⟩ := h
      exact hB

theorem redirs_wf_keep (t : token_t) (rest : List token_t) (h : t.is_redir = false) :
    redirs_wf (t :: rest) = redirs_wf rest := by
  cases rest with
  | nil => simp [redirs_wf, h]
  | cons w r => cases w <;> simp [redirs_wf, h]

theorem redirs_wf_redir (t : token_t) (f : String) (rest : List token_t)
    (h : t.is_redir = true) : redirs_wf (t :: .word f :: rest) = redirs_wf rest := by
  simp [redirs_wf, h]

theorem strip_redirs_keep (t : token_t) (rest : List token_t) (h : t.is_redir = false) :
    strip_redirs (t :: rest) = t :: strip_redirs rest := by
  cases rest with
  | nil => simp [strip_redirs, h]
  | cons w r => simp [strip_redirs, h]

theorem strip_redirs_redir (t w : token_t) (rest : List token_t) (h : t.is_redir = true) :
    strip_redirs (t :: w :: rest) = strip_redirs rest := by
  simp [strip_redirs, h]

theorem redir_files_keep (op t : token_t) (rest : List token_t) (h : t.is_redir = false) :
    redir_files op (t :: rest) = redir_files op rest := by
  cases rest with
  | nil => simp [redir_files, h]
  | cons w r => cases w <;> simp [redir_files, h]

theorem redir_files_redir (op t : token_t) (f : String) (rest : List token_t)
    (h : t.is_redir = true) :
    redir_files op (t :: .word f :: rest) = (if t = op then [f] else []) ++ redir_files op rest := by
  simp [redir_files, h]

/-! ## `do_redir` -/

theorem getElem?_append_len {α : Type} (P X : List α) (k : Nat) :
    (P ++ X)[P.length + k]? = X[k]? := by
  rw [List.getElem?_append_right (Nat.le_add_right _ _)]
  congr 1; omega

theorem set_append_len {α : Type} (P X : List α) (k : Nat) (a : α) :
    (P ++ X).set (P.length + k) a = P ++ X.set k a := by
  rw [List.set_append_right _ _ (Nat.le_add_right _ _)]
  congr 2; omega

theorem is_redir_iff (t : token_t) :
    t.is_redir = true ↔ (t = .T_INPUT ∨ t = .T_OUTPUT) := by
  simp [token_t.is_redir]

theorem do_redir_shift_spec (base n : Nat) :
    ∀ (j : Nat) (P M R : List token_t) (a b : token_t),
      P.length + 2 = base + j → M.length = n →
      ∃ J : List token_t, J.length = 2 ∧
        do_redir_shift base n j (P ++ a :: b :: (M ++ R)) = P ++ (M ++ (J ++ R)) := by
  induction n with
  | zero =>
    intro j P M R a b _ hM
    have : M = [] := List.length_eq_zero.mp hM
    subst this
    exact ⟨[a, b], rfl, by simp [do_redir_shift]⟩
  | succ n ih =>
    intro j P M R a b hP hM
    cases M with
    | nil => simp at hM
    | cons m M =>
      have hget : (P ++ a :: b :: (m :: M ++ R)).getD (base + j) .T_NULL = m := by
        have e : base + j = P.length + 2 := hP.symm
        rw [List.getD_eq_getElem?_getD, e, getElem?_append_len]
        simp
      have hset : (P ++ a :: b :: (m :: M ++ R)).set (base + j - 2) m
          = (P ++ [m]) ++ b :: m :: (M ++ R) := by
        have e : base + j - 2 = P.length + 0 := by omega
        rw [e, set_append_len]
        simp
      obtain ⟨J, hJ, hshift⟩ := ih (j + 1) (P ++ [m]) M R b m
        (by simp; omega) (by simpa using hM)
      refine ⟨J, hJ, ?_⟩
      rw [do_redir_shift, hget, hset, hshift]
      simp

theorem getLast?_cons_getD {α β : Type} (f : α → β) (a : α) (l : List α) (d : β) :
    (((a :: l).getLast?).map f).getD d = ((l.getLast?).map f).getD (f a) := by
  cases l with
  | nil => rfl
  | cons b l =>
    rw [List.getLast?_cons_cons]
    cases h : (b :: l).getLast? with
    | none => simp at h
    | some x => rfl

theorem countP_redir_cons (t : token_t) (f : String) (rest : List token_t)
    (h : t.is_redir = true) :
    (t :: .word f :: rest).countP token_t.is_redir = rest.countP token_t.is_redir + 1 := by
  simp only [List.countP_cons, h, show (token_t.word f).is_redir = false from rfl]
  simp

theorem countP_redir_keep (t : token_t) (rest : List token_t) (h : t.is_redir = false) :
    (t :: rest).countP token_t.is_redir = rest.countP token_t.is_redir := by
  simp only [List.countP_cons, h]
  simp

theorem do_redir_loop_spec (fuel : Nat) :
    ∀ (todo pre done post : List token_t) (input output : Int) (s : sys) (B : List Int)
      (later : List Bool),
      todo.length < fuel → redirs_wf todo = true → token_t.T_NULL ∉ todo → post ≠ [] →
      fd_inv s.fds B [input, output] →
      s.opens = List.replicate (todo.countP token_t.is_redir) true ++ later →
      ∃ (junk token' : List token_t) (input' output' : Int) (s' : sys) (evs : List event_t),
        do_redir_loop pre.length fuel (pre ++ (done ++ (todo ++ post))) done.length
            (done.length + todo.length) input output s
          = .ok (done.length + (strip_redirs todo).length, token', input', output') s' ∧
        token' = pre ++ (done ++ (strip_redirs todo ++ (junk ++ post).set 0 .T_NULL)) ∧
        junk.length + (strip_redirs todo).length = todo.length ∧
        fd_inv s'.fds B [input', output'] ∧
        s' = { s with fds := s'.fds, opens := later, log := s.log ++ evs } ∧
        (∀ e ∈ evs, event_t.is_fd_event e = true) ∧
        (evs.filterMap event_t.open_rd?).map Prod.fst = redir_files .T_INPUT todo ∧
        input' = (((evs.filterMap event_t.open_rd?).getLast?).map Prod.snd).getD input ∧
        (evs.filterMap event_t.open_wr?).map Prod.fst = redir_files .T_OUTPUT todo ∧
        output' = (((evs.filterMap event_t.open_wr?).getLast?).map Prod.snd).getD output ∧
        (redir_files .T_INPUT todo ≠ [] → 0 ≤ input → event_t.close input ∈ evs) ∧
        (redir_files .T_OUTPUT todo ≠ [] → 0 ≤ output → event_t.close output ∈ evs) := by
  induction fuel with
  | zero => intro todo pre done post input output s B later h; omega
  | succ fuel ih =>
    intro todo pre done post input output s B later hfuel hwf hnn hpost hB hop
    cases todo with
    | nil =>
      have hop' : s.opens = later := by simpa using hop
      refine ⟨[], _, input, output, s, [], ?_, rfl, rfl, hB, by rw [← hop']; simp, by simp, rfl,
        rfl, rfl, rfl, by simp [redir_files], by simp [redir_files]⟩
      rw [do_redir_loop, if_neg (by simp)]
      simp only [List.length_nil, Nat.add_zero, strip_redirs, List.nil_append]
      rw [set_append_len, ← Nat.add_zero done.length, set_append_len]
    | cons t rest =>
      have hget : (pre ++ (done ++ (t :: rest ++ post)))[pre.length + done.length]? = some t := by
        rw [getElem?_append_len, ← Nat.add_zero done.length, getElem?_append_len]
        simp
      have htn : t ≠ .T_NULL := fun e => hnn (e ▸ List.mem_cons_self _ _)
      have hnn' : token_t.T_NULL ∉ rest := fun h => hnn (List.mem_cons_of_mem _ h)
      rw [do_redir_loop, if_pos (by simp), hget]
      simp only [if_neg htn]
      by_cases hr : t.is_redir = true
      · -- a redirection operator and its filename
        have hr' := (is_redir_iff t).mp hr
        rw [if_pos hr']
        cases rest with
        | nil => simp [redirs_wf, hr] at hwf
        | cons w rest' =>
          cases w with
          | word f =>
            have hwf' : redirs_wf rest' = true := by
              rw [redirs_wf_redir t f rest' hr] at hwf; exact hwf
            have hnn'' : token_t.T_NULL ∉ rest' := fun h => hnn' (List.mem_cons_of_mem _ h)
            have hget1 : (pre ++ (done ++ (t :: token_t.word f :: rest' ++ post)))[
                pre.length + (done.length + 1)]? = some (.word f) := by
              rw [getElem?_append_len, getElem?_append_len]
              simp
            rw [if_pos (by simp), hget1]
            simp only []
            have hop0 : s.opens
                = true :: (List.replicate (rest'.countP token_t.is_redir) true ++ later) := by
              rw [hop, countP_redir_cons t f rest' hr]
              rfl
            obtain ⟨i1, o1, s1, hopen, hB1, hin, hout⟩ :=
              do_redir_open_ok t f input output s _ hB hop0
            have hop1 : s1.opens
                = List.replicate (rest'.countP token_t.is_redir) true ++ later := by
              by_cases hti : t = .T_INPUT
              · rw [(hin hti).2.2]
              · rw [(hout hti).2.2]
            rw [hopen, res_bind_ok]
            obtain ⟨J, hJ, hshift⟩ := do_redir_shift_spec pre.length rest'.length
              (done.length + 2) (pre ++ done) rest' post t (.word f)
              (by simp; omega) rfl
            have hn : done.length + (rest'.length + 1 + 1) - (done.length + 2)
                = rest'.length := by omega
            have harr : pre ++ (done ++ (t :: token_t.word f :: rest' ++ post))
                = (pre ++ done) ++ t :: token_t.word f :: (rest' ++ post) := by simp
            have hnt : done.length + (rest'.length + 1 + 1) - 2
                = done.length + rest'.length := by omega
            simp only [List.length_cons]
            rw [hn, hnt, harr, hshift]
            obtain ⟨junk, token', input', output', s', evs, h1, h2, h3, h4, h5, h6, h7, h8, h9,
              h10, h11, h12⟩ := ih rest' pre done (J ++ post) i1 o1 s1 B later
                (by simp at hfuel; omega) hwf' hnn'' (by
                  intro h
                  have := congrArg List.length h
                  simp [hJ] at this) hB1 hop1
            have harr2 : pre ++ done ++ (rest' ++ (J ++ post))
                = pre ++ (done ++ (rest' ++ (J ++ post))) := by simp
            rw [harr2, h1]
            have hstrip : strip_redirs (t :: token_t.word f :: rest') = strip_redirs rest' :=
              strip_redirs_redir t _ rest' hr
            have hfiles : ∀ op, redir_files op (t :: token_t.word f :: rest')
                = (if t = op then [f] else []) ++ redir_files op rest' :=
              fun op => redir_files_redir op t f rest' hr
            by_cases hti : t = .T_INPUT
            · obtain ⟨ho1, hi1, hs1⟩ := hin hti
              have hto : ¬ t = token_t.T_OUTPUT := by rw [hti]; simp
              refine ⟨junk ++ J, token', input', output', s',
                ((if 0 ≤ input then [.close input] else []) ++ [.open_rd f i1]) ++ evs,
                by rw [hstrip], ?_, ?_, h4, ?_, ?_, ?_, ?_, ?_, ?_, ?_, ?_⟩
              · rw [h2, hstrip]; simp
              · rw [hstrip]; simp [hJ]; omega
              · rw [h5, hs1]; simp
              · intro e he
                rcases List.mem_append.mp he with h | h
                · rcases List.mem_append.mp h with h | h
                  · split at h
                    · simp at h; subst h; rfl
                    · simp at h
                  · simp at h; subst h; rfl
                · exact h6 e h
              · rw [hfiles, if_pos hti, ← h7]
                split <;> simp [event_t.open_rd?]
              · rw [h8]
                have : (((if 0 ≤ input then [event_t.close input] else [])
                    ++ [event_t.open_rd f i1]) ++ evs).filterMap event_t.open_rd?
                    = (f, i1) :: evs.filterMap event_t.open_rd? := by
                  split <;> simp [event_t.open_rd?]
                rw [this, getLast?_cons_getD]
              · rw [hfiles, if_neg hto, ← h9]
                split <;> simp [event_t.open_wr?]
              · rw [h10, ho1]
                have : (((if 0 ≤ input then [event_t.close input] else [])
                    ++ [event_t.open_rd f i1]) ++ evs).filterMap event_t.open_wr?
                    = evs.filterMap event_t.open_wr? := by
                  split <;> simp [event_t.open_wr?]
                rw [this]
              · intro _ h0
                simp [h0]
              · intro hne h0
                rw [hfiles, if_neg hto] at hne
                have hc := h12 hne (by rw [ho1]; exact h0)
                rw [ho1] at hc
                exact List.mem_append_right _ hc
            · obtain ⟨hi1', ho1, hs1⟩ := hout hti
              have hto : t = token_t.T_OUTPUT := hr'.resolve_left hti
              refine ⟨junk ++ J, token', input', output', s',
                ((if 0 ≤ output then [.close output] else []) ++ [.open_wr f o1]) ++ evs,
                by rw [hstrip], ?_, ?_, h4, ?_, ?_, ?_, ?_, ?_, ?_, ?_, ?_⟩
              · rw [h2, hstrip]; simp
              · rw [hstrip]; simp [hJ]; omega
              · rw [h5, hs1]; simp
              · intro e he
                rcases List.mem_append.mp he with h | h
                · rcases List.mem_append.mp h with h | h
                  · split at h
                    · simp at h; subst h; rfl
                    · simp at h
                  · simp at h; subst h; rfl
                · exact h6 e h
              · rw [hfiles, if_neg hti, ← h7]
                split <;> simp [event_t.open_rd?]
              · rw [h8, hi1']
                have : (((if 0 ≤ output then [event_t.close output] else [])
                    ++ [event_t.open_wr f o1]) ++ evs).filterMap event_t.open_rd?
                    = evs.filterMap event_t.open_rd? := by
                  split <;> simp [event_t.open_rd?]
                rw [this]
              · rw [hfiles, if_pos hto, ← h9]
                split <;> simp [event_t.open_wr?]
              · rw [h10]
                have : (((if 0 ≤ output then [event_t.close output] else [])
                    ++ [event_t.open_wr f o1]) ++ evs).filterMap event_t.open_wr?
                    = (f, o1) :: evs.filterMap event_t.open_wr? := by
                  split <;> simp [event_t.open_wr?]
                rw [this, getLast?_cons_getD]
              · intro hne h0
                rw [hfiles, if_neg hti] at hne
                have hc := h11 hne (by rw [hi1']; exact h0)
                rw [hi1'] at hc
                exact List.mem_append_right _ hc
              · intro _ h0
                simp [h0]
          | _ => simp [redirs_wf, hr] at hwf
      · -- a token that stays
        have hr' : ¬ (t = .T_INPUT ∨ t = .T_OUTPUT) := fun h => hr ((is_redir_iff t).mpr h)
        rw [if_neg hr']
        have hr2 : t.is_redir = false := by simpa using hr
        have hwf' : redirs_wf rest = true := by
          rw [redirs_wf_keep t rest hr2] at hwf; exact hwf
        obtain ⟨junk, token', input', output', s', evs, h1, h2, h3, h4, h5, h6, h7, h8, h9,
          h10, h11, h12⟩ := ih rest pre (done ++ [t]) post input output s B later
            (by simp at hfuel; omega) hwf' hnn' hpost hB
            (by rw [hop, countP_redir_keep t rest hr2])
        have harr : pre ++ (done ++ (t :: rest ++ post))
            = pre ++ ((done ++ [t]) ++ (rest ++ post)) := by simp
        have hlen : done.length + (t :: rest).length = (done ++ [t]).length + rest.length := by
          simp; omega
        have hstrip : strip_redirs (t :: rest) = t :: strip_redirs rest :=
          strip_redirs_keep t rest hr2
        have hfiles : ∀ op, redir_files op (t :: rest) = redir_files op rest :=
          fun op => redir_files_keep op t rest hr2
        have hi : done.length + 1 = (done ++ [t]).length := by simp
        rw [harr, hlen, hi, h1]
        refine ⟨junk, token', input', output', s', evs, ?_, ?_, ?_, h4, h5, h6, ?_, h8, ?_, h10,
          ?_, ?_⟩
        · rw [hstrip]; simp; omega
        · rw [h2, hstrip]; simp
        · rw [hstrip]; simp; omega
        · rw [hfiles]; exact h7
        · rw [hfiles]; exact h9
        · rw [hfiles]; exact h11
        · rw [hfiles]; exact h12

/-- C5: on a token vector `ts` (stored from `&token[pre.length]` on, with room
for the terminator after it) in which each `T_INPUT`/`T_OUTPUT` is followed by a
word, and in an environment where the call of `open` made for each of these
operators succeeds (a failing `open` ends the shell inside `do_redir`),
`do_redir` returns the number of tokens that are neither a redirection
operator nor its filename, leaves exactly those tokens, in their order, at the
front of the vector, followed by `NULL`; the files it opens for reading (for
writing) are the `<` (`>`) filenames in their order, and the input (output)
descriptor it leaves is the one returned by the last of these opens (the one
passed in when there is none); the descriptors open afterwards are those open
before without the two passed in, plus the two it leaves: every other
descriptor it opened, and the one passed in for a redirected side, was closed. -/
theorem do_redir_spec (ts pre post : List token_t) (input output : Int) (s : sys)
    (later : List Bool)
    (hwf : redirs_wf ts = true) (hnn : token_t.T_NULL ∉ ts) (hpost : post ≠ [])
    (hopen : s.opens = List.replicate (ts.countP token_t.is_redir) true ++ later)
    (hfds : ∀ x ∈ s.fds, 0 ≤ x)
    (hin : input < 0 ∨ input ∈ s.fds) (hout : output < 0 ∨ output ∈ s.fds)
    (hne : 0 ≤ input → input ≠ output) :
    ∃ (token' : List token_t) (input' output' : Int) (s' : sys) (evs : List event_t),
      do_redir (pre ++ (ts ++ post)) pre.length ts.length input output s
        = .ok ((strip_redirs ts).length, token', input', output') s' ∧
      token'.length = (pre ++ (ts ++ post)).length ∧
      token'.take pre.length = pre ∧
      (token'.drop pre.length).take (strip_redirs ts).length = strip_redirs ts ∧
      token'[pre.length + (strip_redirs ts).length]? = some .T_NULL ∧
      s' = { s with fds := s'.fds, opens := later, log := s.log ++ evs } ∧
      (∀ e ∈ evs, event_t.is_fd_event e = true) ∧
      (evs.filterMap event_t.open_rd?).map Prod.fst = redir_files .T_INPUT ts ∧
      input' = (((evs.filterMap event_t.open_rd?).getLast?).map Prod.snd).getD input ∧
      (evs.filterMap event_t.open_wr?).map Prod.fst = redir_files .T_OUTPUT ts ∧
      output' = (((evs.filterMap event_t.open_wr?).getLast?).map Prod.snd).getD output ∧
      (redir_files .T_INPUT ts ≠ [] → 0 ≤ input → event_t.close input ∈ evs) ∧
      (redir_files .T_OUTPUT ts ≠ [] → 0 ≤ output → event_t.close output ∈ evs) ∧
      (0 ≤ input' → input' ≠ output') ∧
      ∀ x, x ∈ s'.fds ↔
        (x ∈ s.fds ∧ x ≠ input ∧ x ≠ output) ∨ (x = input' ∧ 0 ≤ x) ∨ (x = output' ∧ 0 ≤ x) := by
  -- the descriptors that are not those of the stage
  have hB : fd_inv s.fds (s.fds.filter (fun x => decide (x ≠ input ∧ x ≠ output)))
      [input, output] := by
    refine ⟨fun x => ?_, fun x hx h0 hm => ?_, ?_⟩
    · simp only [List.mem_filter, decide_eq_true_eq, List.mem_cons, List.mem_singleton,
        List.not_mem_nil, or_false]
      constructor
      · intro hx
        by_cases h1 : x = input
        · exact Or.inr ⟨Or.inl h1, hfds x hx⟩
        · by_cases h2 : x = output
          · exact Or.inr ⟨Or.inr h2, hfds x hx⟩
          · exact Or.inl ⟨hx, h1, h2⟩
      · rintro (⟨hx, _⟩ | ⟨h1 | h1, h0⟩)
        · exact hx
        · subst h1
          rcases hin with h | h
          · omega
          · exact h
        · subst h1
          rcases hout with h | h
          · omega
          · exact h
    · simp only [List.mem_filter, decide_eq_true_eq, List.mem_cons, List.mem_singleton,
        List.not_mem_nil, or_false] at hx hm
      rcases hx with h | h
      · exact hm.2.1 h
      · exact hm.2.2 h
    · by_cases h1 : 0 ≤ input <;> by_cases h2 : 0 ≤ output <;>
        simp [List.filter_cons, h1, h2]
      exact hne h1
  obtain ⟨junk, token', input', output', s', evs, h1, h2, h3, h4, h5, h6, h7, h8, h9, h10, h11,
    h12⟩ := do_redir_loop_spec (ts.length + 1) ts pre [] post input output s _ later
      (Nat.lt_succ_self _) hwf hnn hpost hB hopen
  simp only [List.length_nil, Nat.zero_add, List.nil_append] at h1 h2
  obtain ⟨p0, post', rfl⟩ : ∃ p0 post', post = p0 :: post' := by
    cases post with
    | nil => exact absurd rfl hpost
    | cons a l => exact ⟨a, l, rfl⟩
  -- the vector after the call
  have htail : ∃ tail, (junk ++ p0 :: post').set 0 token_t.T_NULL = token_t.T_NULL :: tail ∧
      tail.length + 1 = junk.length + (post'.length + 1) := by
    cases junk with
    | nil => exact ⟨post', by simp, by simp⟩
    | cons j junk => exact ⟨junk ++ p0 :: post', by simp, by simp; omega⟩
  obtain ⟨tail, htail, hlen⟩ := htail
  rw [htail] at h2
  obtain ⟨hm, hdisj, hnd⟩ := h4
  refine ⟨token', input', output', s', evs, h1, ?_, ?_, ?_, ?_, h5, h6, h7, h8, h9, h10, h11, h12,
    ?_, ?_⟩
  · rw [h2]; simp; omega
  · rw [h2]; simp
  · rw [h2]; simp
  · rw [h2, getElem?_append_len, ← Nat.add_zero (strip_redirs ts).length, getElem?_append_len]
    simp
  · intro h0 he
    by_cases h2' : 0 ≤ output'
    · simp [List.filter_cons, h0, h2', he] at hnd
    · omega
  · intro x
    rw [hm x]
    simp only [List.mem_filter, decide_eq_true_eq, List.mem_cons, List.mem_singleton,
      List.not_mem_nil, or_false]
    constructor
    · rintro (h | ⟨h | h, h0⟩)
      · exact Or.inl h
      · exact Or.inr (Or.inl ⟨h, h0⟩)
      · exact Or.inr (Or.inr ⟨h, h0⟩)
    · rintro (h | ⟨h, h0⟩ | ⟨h, h0⟩)
      · exact Or.inl h
      · exact Or.inr ⟨Or.inl h, h0⟩
      · exact Or.inr ⟨Or.inr h, h0⟩

theorem do_redir_spec_witness :
    ∃ (token' : List token_t) (input' output' : Int) (s' : sys) (evs : List event_t),
      do_redir (([] : List token_t) ++ (ex_redir_tokens ++ [token_t.T_NULL])) ([] : List token_t).length
          ex_redir_tokens.length (-1) (-1) ex_launch_sys
        = .ok ((strip_redirs ex_redir_tokens).length, token', input', output') s' ∧
      token'.length = (([] : List token_t) ++ (ex_redir_tokens ++ [token_t.T_NULL])).length ∧
      token'.take ([] : List token_t).length = [] ∧
      (token'.drop ([] : List token_t).length).take (strip_redirs ex_redir_tokens).length
        = strip_redirs ex_redir_tokens ∧
      token'[([] : List token_t).length + (strip_redirs ex_redir_tokens).length]?
        = some .T_NULL ∧
      s' = { ex_launch_sys with fds := s'.fds, opens := [true],
                                log := ex_launch_sys.log ++ evs } ∧
      (∀ e ∈ evs, event_t.is_fd_event e = true) ∧
      (evs.filterMap event_t.open_rd?).map Prod.fst = redir_files .T_INPUT ex_redir_tokens ∧
      input' = (((evs.filterMap event_t.open_rd?).getLast?).map Prod.snd).getD (-1) ∧
      (evs.filterMap event_t.open_wr?).map Prod.fst = redir_files .T_OUTPUT ex_redir_tokens ∧
      output' = (((evs.filterMap event_t.open_wr?).getLast?).map Prod.snd).getD (-1) ∧
      (redir_files .T_INPUT ex_redir_tokens ≠ [] → (0 : Int) ≤ -1 →
        event_t.close (-1) ∈ evs) ∧
      (redir_files .T_OUTPUT ex_redir_tokens ≠ [] → (0 : Int) ≤ -1 →
        event_t.close (-1) ∈ evs) ∧
      (0 ≤ input' → input' ≠ output') ∧
      ∀ x, x ∈ s'.fds ↔
        (x ∈ ex_launch_sys.fds ∧ x ≠ -1 ∧ x ≠ -1) ∨ (x = input' ∧ 0 ≤ x) ∨
          (x = output' ∧ 0 ≤ x) :=
  do_redir_spec ex_redir_tokens [] [.T_NULL] (-1) (-1) ex_launch_sys [true] (by decide)
    (by decide) (by simp) (by decide) (by decide) (Or.inl (by decide)) (Or.inl (by decide))
    (by decide)

/-! ## Descriptors of the pipeline launcher, for any token vector -/

theorem res_bind_eq_ok {α β : Type} {r : res α} {f : α → sys → res β} {b : β} {s' : sys}
    (h : r.bind f = .ok b s') : ∃ a s1, r = .ok a s1 ∧ f a s1 = .ok b s' := by
  cases r with
  | ok a s1 => exact ⟨a, s1, rfl, h⟩
  | abort s1 => simp at h
  | blocked s1 => simp at h

theorem launch_step_refl (B : List Int) (s : sys) : launch_step B s s :=
  ⟨[], by simp, by simp⟩

theorem launch_step_trans {B : List Int} {s1 s2 s3 : sys} (h1 : launch_step B s1 s2)
    (h2 : launch_step B s2 s3) : launch_step B s1 s3 := by
  obtain ⟨e1, h1, he1⟩ := h1
  obtain ⟨e2, h2, he2⟩ := h2
  refine ⟨e1 ++ e2, by rw [h2, h1]; simp, ?_⟩
  intro e he
  rcases List.mem_append.mp he with h | h
  · exact he1 e h
  · exact he2 e h

theorem launch_step_of_fd_step (B : List Int) {s s' : sys} (h : fd_step s s') :
    launch_step B s s' := by
  obtain ⟨evs, h1, h2⟩ := h
  refine ⟨evs, by rw [h2], ?_⟩
  intro e he x hx
  have := h1 e he
  cases e <;> simp [event_t.is_fd_event, event_t.pipe_fds] at this hx

theorem launch_step_event (B : List Int) (s s' : sys) (e : event_t)
    (h : s'.log = s.log ++ [e]) (he : e.pipe_fds = []) : launch_step B s s' :=
  ⟨[e], h, by simp [he]⟩

theorem MaybeClose_fd {B own : List Int} {a a' : Int} {s s' : sys}
    (hB : fd_inv s.fds B (a :: own)) (h : MaybeClose a s = .ok a' s') :
    fd_inv s'.fds B own ∧ a' < 0 ∧ launch_step B s s' := by
  obtain ⟨a2, s2, h1, h2, h3, _⟩ := MaybeClose_ok a s hB
  rw [h1] at h
  cases h
  refine ⟨h3, h2, launch_step_of_fd_step B ?_⟩
  have := MaybeClose_step a s
  rw [h1] at this
  exact this

theorem mkpipe_fd {B own : List Int} (s : sys) (hB : fd_inv s.fds B own) :
    ∃ rd wr s', mkpipe s = .ok (rd, wr) s' ∧ fd_inv s'.fds B (wr :: rd :: own) ∧
      launch_step B s s' ∧
      s' = { s with fds := s'.fds, log := s.log ++ [.pipe rd wr] } := by
  have h1 := fd_inv_alloc hB
  have h2 := fd_inv_alloc h1
  refine ⟨_, _, _, rfl, h2, ⟨[.pipe _ _], rfl, ?_⟩, rfl⟩
  intro e he x hx
  simp only [List.mem_singleton] at he
  subst he
  simp only [event_t.pipe_fds, List.mem_cons, List.mem_singleton, List.not_mem_nil,
    or_false] at hx
  rcases hx with rfl | rfl
  · exact h1.2.1 _ (List.mem_cons_self _ _) (fd_alloc_nonneg _)
  · exact h2.2.1 _ (List.mem_cons_self _ _) (fd_alloc_nonneg _)

theorem Fork_ok {input output pid : Int} {s s' : sys} (h : Fork input output s = .ok pid s') :
    ∃ pids, s.pids = pid :: pids ∧
      s' = { s with pids := pids, log := s.log ++ [.fork pid input output] } := by
  unfold Fork at h
  cases hp : s.pids with
  | nil => rw [hp] at h; simp at h
  | cons p ps =>
    rw [hp] at h
    simp only [res.ok.injEq] at h
    obtain ⟨rfl, rfl⟩ := h
    exact ⟨ps, rfl, rfl⟩

theorem call_addproc_ok {K : shell_h} {job pid : Int} {token : List token_t} {base : Nat}
    {s s' : sys} (h : call_addproc K job pid token base s = .ok () s') :
    ∃ argv jobs, argv_of (token.drop base) = some argv ∧ 0 ≤ job ∧
      addproc K s.jobs job.toNat pid argv = some jobs ∧
      s' = { s with jobs := jobs, log := s.log ++ [.addproc job.toNat pid argv] } := by
  unfold call_addproc at h
  by_cases hj : job < 0
  · simp [hj] at h
  · rw [if_neg hj] at h
    cases ha : argv_of (token.drop base) with
    | none => rw [ha] at h; simp at h
    | some argv =>
      simp only [ha] at h
      cases hp : addproc K s.jobs job.toNat pid argv with
      | none => simp [hp] at h
      | some jobs =>
        simp only [hp, res.ok.injEq, true_and] at h
        exact ⟨argv, jobs, rfl, by omega, hp, h.symm⟩

theorem fd_inv_to_base {fds B : List Int} (own : List Int) (c : Int)
    (h : fd_inv fds B (own ++ [c])) :
    fd_inv fds (if 0 ≤ c then c :: B else B) own ∧ (0 ≤ c → c ∉ B) := by
  obtain ⟨h1, h2, h3⟩ := h
  have hcB : 0 ≤ c → c ∉ B := fun h0 => h2 c (by simp) h0
  refine ⟨⟨fun x => ?_, fun x hx h0 => ?_, ?_⟩, hcB⟩
  · rw [h1 x]
    by_cases h0 : 0 ≤ c
    · simp only [if_pos h0, List.mem_append, List.mem_cons, List.not_mem_nil, or_false]
      constructor
      · rintro (h | ⟨h | h, hx0⟩)
        · exact Or.inl (Or.inr h)
        · exact Or.inr ⟨h, hx0⟩
        · exact Or.inl (Or.inl h)
      · rintro ((h | h) | ⟨h, hx0⟩)
        · exact Or.inr ⟨Or.inr h, h ▸ h0⟩
        · exact Or.inl h
        · exact Or.inr ⟨Or.inl h, hx0⟩
    · simp only [if_neg h0, List.mem_append, List.mem_cons, List.not_mem_nil, or_false]
      constructor
      · rintro (h | ⟨h | h, hx0⟩)
        · exact Or.inl h
        · exact Or.inr ⟨h, hx0⟩
        · exact absurd (h ▸ hx0) h0
      · rintro (h | ⟨h, hx0⟩)
        · exact Or.inl h
        · exact Or.inr ⟨Or.inl h, hx0⟩
  · have hxB := h2 x (List.mem_append_left _ hx) h0
    by_cases hc0 : 0 ≤ c
    · rw [if_pos hc0]
      intro hm
      rcases List.mem_cons.mp hm with hxc | hm
      · rw [List.filter_append] at h3
        have := (List.nodup_append.mp h3).2.2
        exact this (List.mem_filter.mpr ⟨hx, by simpa using h0⟩)
          (List.mem_filter.mpr ⟨by simp [hxc], by simpa using h0⟩)
      · exact hxB hm
    · rw [if_neg hc0]; exact hxB
  · rw [List.filter_append] at h3
    exact (List.nodup_append.mp h3).1

theorem call_addproc_fd {K : shell_h} {job pid : Int} {token : List token_t} {base : Nat}
    {s s' : sys} (B : List Int) (h : call_addproc K job pid token base s = .ok () s') :
    s'.fds = s.fds ∧ launch_step B s s' := by
  obtain ⟨argv, jobs, _, _, _, hs⟩ := call_addproc_ok h
  rw [hs]
  exact ⟨rfl, launch_step_event B _ _ (.addproc job.toNat pid argv) rfl rfl⟩

theorem call_addjob_fd (K : shell_h) (pgid : Int) (bg : Bool) (s : sys) (B : List Int) :
    (call_addjob K pgid bg s).2.fds = s.fds ∧ launch_step B s (call_addjob K pgid bg s).2 :=
  ⟨rfl, launch_step_event B _ _
    (.addjob pgid bg (addjob K s.shell_tmodes s.jobs pgid bg).1) rfl rfl⟩

theorem fd_inv_self (fds : List Int) : fd_inv fds fds [] :=
  ⟨fun x => by simp, fun x hx => by simp at hx, by simp⟩

theorem Sigsuspend_fd {K : shell_h} {s s' : sys} (B : List Int)
    (h : Sigsuspend K s = .ok () s') : s'.fds = s.fds ∧ launch_step B s s' := by
  unfold Sigsuspend at h
  cases hs : s.signals with
  | nil => simp [hs] at h
  | cons r rest =>
    simp only [hs, res.ok.injEq, true_and] at h
    subst h
    exact ⟨rfl, launch_step_refl B _⟩

theorem Kill_fd (B : List Int) (pid : Int) (sig : String) (s : sys) :
    (Kill pid sig s).fds = s.fds ∧ launch_step B s (Kill pid sig s) :=
  ⟨rfl, launch_step_event B _ _ (.kill pid sig) rfl rfl⟩

theorem monitorjob_cont_fd {K : shell_h} (B : List Int) (n : Nat) :
    ∀ {s s' : sys}, monitorjob_cont K n s = .ok () s' →
      s'.fds = s.fds ∧ launch_step B s s' := by
  induction n with
  | zero =>
    intro s s' h
    simp only [monitorjob_cont, res.ok.injEq, true_and] at h
    subst h
    exact ⟨rfl, launch_step_refl B _⟩
  | succ n ih =>
    intro s s' h
    rw [monitorjob_cont] at h
    cases hfg : s.jobs[FG]? with
    | none => simp [hfg] at h
    | some job =>
      simp only [hfg] at h
      by_cases hst : job.state = K.STOPPED
      · rw [if_pos hst] at h
        cases hsig : Sigsuspend K (Kill (-job.pgid) "SIGCONT" s) with
        | ok u s1 =>
          rw [hsig] at h
          obtain ⟨h1, h2⟩ := Sigsuspend_fd B hsig
          obtain ⟨h3, h4⟩ := ih h
          obtain ⟨h5, h6⟩ := Kill_fd B (-job.pgid) "SIGCONT" s
          exact ⟨by rw [h3, h1, h5], launch_step_trans h6 (launch_step_trans h2 h4)⟩
        | abort s1 => rw [hsig] at h; simp at h
        | blocked s1 => rw [hsig] at h; simp at h
      · rw [if_neg hst] at h
        simp only [res.ok.injEq, true_and] at h
        subst h
        exact ⟨rfl, launch_step_refl B _⟩

theorem monitorjob_wait_fd {K : shell_h} (B : List Int) (fuel : Nat) :
    ∀ {e : Int} {s s' : sys} {r : Int × Int}, monitorjob_wait K fuel e s = .ok r s' →
      s'.fds = s.fds ∧ launch_step B s s' := by
  induction fuel with
  | zero => intro e s s' r h; simp [monitorjob_wait] at h
  | succ fuel ih =>
    intro e s s' r h
    rw [monitorjob_wait] at h
    cases hj : jobstate K s.jobs FG e with
    | none => simp [hj] at h
    | some v =>
      obtain ⟨state, ec, jobs⟩ := v
      simp only [hj] at h
      by_cases hr : state = K.RUNNING
      · rw [if_pos hr] at h
        cases hsig : Sigsuspend K { s with jobs := jobs } with
        | ok u s1 =>
          rw [hsig] at h
          obtain ⟨h1, h2⟩ := Sigsuspend_fd B hsig
          obtain ⟨h3, h4⟩ := ih h
          refine ⟨by rw [h3, h1], launch_step_trans ?_ (launch_step_trans h2 h4)⟩
          exact ⟨[], by simp, by simp⟩
        | abort s1 => rw [hsig] at h; simp at h
        | blocked s1 => rw [hsig] at h; simp at h
      · rw [if_neg hr] at h
        simp only [res.ok.injEq] at h
        obtain ⟨_, rfl⟩ := h
        exact ⟨rfl, ⟨[], by simp, by simp⟩⟩

theorem monitorjob_fd {K : shell_h} (B : List Int) {e r : Int} {s s' : sys}
    (h : monitorjob K e s = .ok r s') : s'.fds = s.fds ∧ launch_step B s s' := by
  unfold monitorjob at h
  cases hfg : s.jobs[FG]? with
  | none => simp [hfg] at h
  | some fg =>
    simp only [hfg] at h
    cases hc : monitorjob_cont K 129 (Kill (-fg.pgid) "SIGCONT" { s with tty_pgrp := fg.pgid }) with
    | abort s1 => simp [hc] at h
    | blocked s1 => simp [hc] at h
    | ok u s1 =>
      simp only [hc] at h
      obtain ⟨h1, h2⟩ := monitorjob_cont_fd B 129 hc
      obtain ⟨h3, h4⟩ := Kill_fd B (-fg.pgid) "SIGCONT" { s with tty_pgrp := fg.pgid }
      have h12 : s1.fds = s.fds ∧ launch_step B s s1 :=
        ⟨by rw [h1, h3], launch_step_trans (launch_step_trans ⟨[], by simp, by simp⟩ h4) h2⟩
      cases hw : monitorjob_wait K (s1.signals.length + 1) e s1 with
      | abort s2 => simp [hw] at h
      | blocked s2 => simp [hw] at h
      | ok v s2 =>
        obtain ⟨state, ec⟩ := v
        simp only [hw] at h
        obtain ⟨h5, h6⟩ := monitorjob_wait_fd B _ hw
        have h56 : s2.fds = s.fds ∧ launch_step B s s2 :=
          ⟨by rw [h5, h12.1], launch_step_trans h12.2 h6⟩
        by_cases hst : state = K.STOPPED
        · rw [if_pos hst] at h
          cases hm : movejob (addjob K s2.shell_tmodes s2.jobs 0 true).2 FG
              (addjob K s2.shell_tmodes s2.jobs 0 true).1 with
          | none => simp [hm] at h
          | some jobs =>
            simp only [hm] at h
            cases hg : jobs[(addjob K s2.shell_tmodes s2.jobs 0 true).1]? with
            | none => simp [hg] at h
            | some job =>
              simp only [hg, res.ok.injEq] at h
              obtain ⟨_, rfl⟩ := h
              refine ⟨h56.1, launch_step_trans h56.2 ?_⟩
              exact launch_step_event B _ _
                (.msg (.suspended (addjob K s2.shell_tmodes s2.jobs 0 true).1 job.command))
                rfl rfl
        · rw [if_neg hst] at h
          simp only [res.ok.injEq] at h
          obtain ⟨_, rfl⟩ := h
          exact ⟨h56.1, launch_step_trans h56.2 ⟨[], by simp, by simp⟩⟩

/-! ## The pipeline launcher on the token vectors it accepts -/

theorem view_of_fd_step {s s' : sys} (h : fd_step s s') : s'.view = s.view := by
  obtain ⟨evs, h1, h2⟩ := h
  have hf : evs.filterMap event_t.fork? = [] := by
    rw [List.filterMap_eq_nil_iff]
    intro e he
    have := h1 e he
    cases e <;> simp [event_t.is_fd_event] at this <;> rfl
  have ha : evs.filterMap event_t.addjob? = [] := by
    rw [List.filterMap_eq_nil_iff]
    intro e he
    have := h1 e he
    cases e <;> simp [event_t.is_fd_event] at this <;> rfl
  rw [h2]
  simp [sys.view, sys.forked, sys.addjob_calls, List.filterMap_append, hf, ha]

theorem words_of_length (l : List token_t) (h : ∀ t ∈ l, t.is_word = true) :
    (words_of l).length = l.length := by
  induction l with
  | nil => rfl
  | cons a l ih =>
    have ha := h a (List.mem_cons_self _ _)
    cases a with
    | word w => simp [words_of, ih (fun t ht => h t (List.mem_cons_of_mem _ ht))]
    | _ => simp [token_t.is_word] at ha

theorem view_of_mkpipe {s s' : sys} {p : Int × Int} (h : mkpipe s = .ok p s') :
    s'.view = s.view := by
  unfold mkpipe at h
  simp only [res.ok.injEq] at h
  obtain ⟨_, rfl⟩ := h
  simp [sys.view, sys.forked, sys.addjob_calls, List.filterMap_append, event_t.fork?,
    event_t.addjob?]

theorem do_pipeline_loop_skip (K : shell_h) (bg : Bool) (ntokens : Nat) (ts : List token_t) :
    ∀ (P rest : List token_t) (n : Nat) (st : pipeline_t) (s : sys),
      st.token = P ++ (ts ++ rest) → token_t.T_PIPE ∉ ts →
      do_pipeline_loop K bg ntokens (ts.length + n) P.length st s
        = do_pipeline_loop K bg ntokens n (P.length + ts.length) st s := by
  induction ts with
  | nil => intro P rest n st s _ _; simp
  | cons t ts ih =>
    intro P rest n st s htok hnp
    have e1 : (t :: ts).length + n = (ts.length + n) + 1 := by simp; omega
    have hget : st.token[P.length]? = some t := by
      rw [htok, ← Nat.add_zero P.length, getElem?_append_len]
      simp
    have ht : t ≠ .T_PIPE := fun e => hnp (e ▸ List.mem_cons_self _ _)
    rw [e1, do_pipeline_loop, hget]
    simp only [if_neg ht]
    have := ih (P ++ [t]) rest n st s (by rw [htok]; simp)
      (fun h => hnp (List.mem_cons_of_mem _ h))
    simp only [List.length_append, List.length_singleton] at this
    rw [this]
    congr 1
    simp; omega

theorem redirs_wf_redir_bad (t : token_t) (rest : List token_t) (h : t.is_redir = true)
    (hrest : ∀ f rest', rest ≠ .word f :: rest') : redirs_wf (t :: rest) = false := by
  cases rest with
  | nil => simp [redirs_wf, h]
  | cons w r =>
    cases w with
    | word f => exact absurd rfl (hrest f r)
    | _ => simp [redirs_wf, h]

/-- What the loop of `do_redir` does on a token list without `NULL`: the shell
ends (a failed `assert`, a failed `open`), or every redirection operator has
its filename and the loop returns the number of the tokens that stay. -/
theorem do_redir_loop_result (fuel : Nat) :
    ∀ (todo pre done post : List token_t) (input output : Int) (s : sys) (B : List Int),
      todo.length < fuel → token_t.T_NULL ∉ todo →
      fd_inv s.fds B [input, output] →
      (∃ s', do_redir_loop pre.length fuel (pre ++ (done ++ (todo ++ post))) done.length
          (done.length + todo.length) input output s = .abort s') ∨
      (redirs_wf todo = true ∧ ∃ token' input' output' s',
        do_redir_loop pre.length fuel (pre ++ (done ++ (todo ++ post))) done.length
          (done.length + todo.length) input output s
          = .ok (done.length + (strip_redirs todo).length, token', input', output') s') := by
  induction fuel with
  | zero => intro todo pre done post input output s B h; omega
  | succ fuel ih =>
    intro todo pre done post input output s B hfuel hnn hB
    cases todo with
    | nil =>
      refine Or.inr ⟨rfl, ?_⟩
      rw [do_redir_loop, if_neg (by simp)]
      exact ⟨_, _, _, _, rfl⟩
    | cons t rest =>
      have hget : (pre ++ (done ++ (t :: rest ++ post)))[pre.length + done.length]? = some t := by
        rw [getElem?_append_len, ← Nat.add_zero done.length, getElem?_append_len]
        simp
      have htn : t ≠ .T_NULL := fun e => hnn (e ▸ List.mem_cons_self _ _)
      have hnn' : token_t.T_NULL ∉ rest := fun h => hnn (List.mem_cons_of_mem _ h)
      rw [do_redir_loop, if_pos (by simp), hget]
      simp only [if_neg htn]
      by_cases hr : t.is_redir = true
      · have hr' := (is_redir_iff t).mp hr
        rw [if_pos hr']
        cases rest with
        | nil =>
          rw [if_neg (by simp)]
          exact Or.inl ⟨s, rfl⟩
        | cons w rest' =>
          have hget1 : (pre ++ (done ++ (t :: w :: rest' ++ post)))[
              pre.length + (done.length + 1)]? = some w := by
            rw [getElem?_append_len, getElem?_append_len]
            simp
          rw [if_pos (by simp), hget1]
          cases w with
          | word f =>
            simp only []
            have hnn'' : token_t.T_NULL ∉ rest' := fun h => hnn' (List.mem_cons_of_mem _ h)
            rcases do_redir_open_result t f input output s hB with
              ⟨s1, hopen⟩ | ⟨i1, o1, s1, hopen, hB1⟩
            · rw [hopen, res_bind_abort]
              exact Or.inl ⟨s1, rfl⟩
            · rw [hopen, res_bind_ok]
              obtain ⟨J, hJ, hshift⟩ := do_redir_shift_spec pre.length rest'.length
                (done.length + 2) (pre ++ done) rest' post t (.word f)
                (by simp; omega) rfl
              have hn : done.length + (rest'.length + 1 + 1) - (done.length + 2)
                  = rest'.length := by omega
              have harr : pre ++ (done ++ (t :: token_t.word f :: rest' ++ post))
                  = (pre ++ done) ++ t :: token_t.word f :: (rest' ++ post) := by simp
              have hnt : done.length + (rest'.length + 1 + 1) - 2
                  = done.length + rest'.length := by omega
              simp only [List.length_cons]
              rw [hn, hnt, harr, hshift]
              have harr2 : pre ++ done ++ (rest' ++ (J ++ post))
                  = pre ++ (done ++ (rest' ++ (J ++ post))) := by simp
              rw [harr2]
              rcases ih rest' pre done (J ++ post) i1 o1 s1 B (by simp at hfuel; omega) hnn''
                hB1 with h | ⟨hwf', h⟩
              · exact Or.inl h
              · refine Or.inr ⟨by rw [redirs_wf_redir t f rest' hr]; exact hwf', ?_⟩
                rw [strip_redirs_redir t _ rest' hr]
                exact h
          | _ => exact Or.inl ⟨s, rfl⟩
      · have hr' : ¬ (t = .T_INPUT ∨ t = .T_OUTPUT) := fun h => hr ((is_redir_iff t).mpr h)
        rw [if_neg hr']
        have hr2 : t.is_redir = false := by simpa using hr
        have harr : pre ++ (done ++ (t :: rest ++ post))
            = pre ++ ((done ++ [t]) ++ (rest ++ post)) := by simp
        have hlen : done.length + (t :: rest).length = (done ++ [t]).length + rest.length := by
          simp; omega
        have hi : done.length + 1 = (done ++ [t]).length := by simp
        rw [harr, hlen, hi]
        rcases ih rest pre (done ++ [t]) post input output s B (by simp at hfuel; omega) hnn'
          hB with h | ⟨hwf', h⟩
        · exact Or.inl h
        · refine Or.inr ⟨by rw [redirs_wf_keep t rest hr2]; exact hwf', ?_⟩
          rw [strip_redirs_keep t rest hr2]
          have e : (done ++ [t]).length + (strip_redirs rest).length
              = (done ++ [t]).length - 1 + (t :: strip_redirs rest).length := by
            simp; omega
          rw [e] at h
          simpa using h

/-- On a token list in which some redirection operator lacks its filename,
`do_redir` ends the shell: at the failed `assert`, or earlier at a failed
`open`. -/
theorem do_redir_loop_abort (fuel : Nat) (todo pre done post : List token_t)
    (input output : Int) (s : sys) (B : List Int)
    (hfuel : todo.length < fuel) (hwf : redirs_wf todo = false) (hnn : token_t.T_NULL ∉ todo)
    (hB : fd_inv s.fds B [input, output]) :
    ∃ s', do_redir_loop pre.length fuel (pre ++ (done ++ (todo ++ post))) done.length
        (done.length + todo.length) input output s = .abort s' := by
  rcases do_redir_loop_result fuel todo pre done post input output s B hfuel hnn hB with
    h | ⟨hwf', _⟩
  · exact h
  · rw [hwf] at hwf'; cases hwf'

/-- When the first stage is not one the launcher can start, `do_stage` stops
the shell before the fork. -/
theorem do_stage_abort (pgid input output : Int) (ts post : List token_t) (s : sys)
    (B : List Int) (hnn : token_t.T_NULL ∉ ts)
    (hbad : redirs_wf ts = false ∨ strip_redirs ts = [])
    (hB : fd_inv s.fds B [input, output]) :
    ∃ s', do_stage pgid input output (ts ++ post) 0 ts.length s = .abort s' ∧
      s'.view = s.view := by
  have hstep := (do_redir_loop_fd 0 (ts.length + 1) (ts ++ post) 0 ts.length input output s).1
  rcases do_redir_loop_result (ts.length + 1) ts [] [] post input output s B
    (Nat.lt_succ_self _) hnn hB with ⟨s1, h1⟩ | ⟨hwf, token', i1, o1, s1, h1⟩
  · simp only [List.length_nil, Nat.zero_add, List.nil_append] at h1
    refine ⟨s1, ?_, ?_⟩
    · unfold do_stage do_redir
      rw [h1]
      rfl
    · rw [h1] at hstep
      exact view_of_fd_step hstep
  · have hstrip : strip_redirs ts = [] := by
      rcases hbad with h | h
      · rw [hwf] at h; cases h
      · exact h
    simp only [List.length_nil, Nat.zero_add, List.nil_append, hstrip] at h1
    refine ⟨{ s1 with log := s1.log ++
      [.app_error "ERROR: Command line is not well formed!"] }, ?_, ?_⟩
    · unfold do_stage do_redir
      rw [h1]
      simp only [res_bind_ok, if_true]
    · rw [h1] at hstep
      have hv1 : s1.view = s.view := view_of_fd_step hstep
      rw [← hv1]
      simp [sys.view, sys.forked, sys.addjob_calls, List.filterMap_append, event_t.fork?,
        event_t.addjob?]

theorem starts_with_word_iff (R : List token_t) :
    (R[0]?.map token_t.is_word) = some true ↔ starts_with_word R = true := by
  cases R with
  | nil => simp [starts_with_word]
  | cons t R => cases t <;> simp [starts_with_word, token_t.is_word]

/-- When the syntax error lies in the first pipeline stage (it is empty, it
holds nothing but redirections, or one of its redirection operators lacks a
filename) or right after the first pipe symbol (no word follows it),
`do_pipeline` stops the shell before any child is forked. -/
theorem do_pipeline_first_stage_error (K : shell_h) (e : Int) (bg : Bool)
    (first R : List token_t) (ntokens : Nat) (s : sys)
    (hnp : token_t.T_PIPE ∉ first) (hnn : token_t.T_NULL ∉ first)
    (hn : first.length < ntokens)
    (hbad : redirs_wf first = false ∨ strip_redirs first = [] ∨
      ¬ (first.length + 1 < ntokens ∧ starts_with_word R = true)) :
    ∃ s', do_pipeline K e (first ++ .T_PIPE :: R) ntokens bg s = .abort s' ∧
      s'.forked = s.forked ∧ s'.pids = s.pids ∧ s'.jobs = s.jobs ∧
      s'.addjob_calls = s.addjob_calls := by
  obtain ⟨rd, wr, s1, hpipe, hB1, _, _⟩ := mkpipe_fd s (fd_inv_self s.fds)
  have hv1 : s1.view = s.view := view_of_mkpipe hpipe
  obtain ⟨st0, hst0⟩ : ∃ st0 : pipeline_t, st0 = ⟨0, -1, -1, wr, rd, -1,
      first ++ .T_PIPE :: R⟩ := ⟨_, rfl⟩
  have htok0 : st0.token = first ++ .T_PIPE :: R := by rw [hst0]
  obtain ⟨m, hm⟩ : ∃ m, ntokens = first.length + (m + 1) := ⟨ntokens - first.length - 1, by omega⟩
  have hskip := do_pipeline_loop_skip K bg ntokens first [] (.T_PIPE :: R) (m + 1) st0 s1
    (by rw [htok0]; rfl) hnp
  simp only [List.length_nil, Nat.zero_add] at hskip
  have hget : st0.token[first.length]? = some .T_PIPE := by
    rw [htok0, ← Nat.add_zero first.length, getElem?_append_len]; simp
  have hget1 : st0.token[first.length + 1]? = R[0]? := by
    rw [htok0, getElem?_append_len]; simp
  -- the loop stops at the first pipe symbol
  have hloop : ∃ s2, do_pipeline_loop K bg ntokens ntokens 0 st0 s1 = .abort s2 ∧
      s2.view = s1.view := by
    have e1 : do_pipeline_loop K bg ntokens ntokens 0 st0 s1
        = do_pipeline_loop K bg ntokens (m + 1) first.length st0 s1 := by
      conv => lhs; arg 4; rw [hm]
      exact hskip
    rw [e1, do_pipeline_loop, hget]
    simp only [if_true]
    by_cases hassert : first.length + 1 < ntokens ∧
        (st0.token[first.length + 1]?.map token_t.is_word) = some true
    · rw [if_pos hassert]
      have hsw : starts_with_word R = true := by
        rw [← starts_with_word_iff, ← hget1]; exact hassert.2
      have hbad' : redirs_wf first = false ∨ strip_redirs first = [] := by
        rcases hbad with h | h | h
        · exact Or.inl h
        · exact Or.inr h
        · exact absurd ⟨hassert.1, hsw⟩ h
      have hB0 : fd_inv s1.fds (if 0 ≤ rd then rd :: s.fds else s.fds) [-1, wr] :=
        (fd_inv_to_base [-1, wr] rd (fd_inv_add_neg (show (-1 : Int) < 0 by decide) hB1)).1
      obtain ⟨s2, h2, hv2⟩ := do_stage_abort 0 (-1) wr first (.T_PIPE :: R) s1 _ hnn
        hbad' hB0
      refine ⟨s2, ?_, hv2⟩
      unfold do_pipeline_pipe
      rw [hst0]
      simp only [if_true, h2, res_bind_abort]
    · rw [if_neg hassert]
      exact ⟨s1, rfl, rfl⟩
  obtain ⟨s2, h2, hv2⟩ := hloop
  refine ⟨s2, ?_, ?_⟩
  · unfold do_pipeline do_pipeline_launch
    rw [hpipe, res_bind_ok, ← hst0, h2]
    rfl
  · have hv : s2.view = s.view := by rw [hv2, hv1]
    exact ⟨congrArg view_t.forked hv, congrArg view_t.pids hv, congrArg view_t.jobs hv,
      congrArg view_t.addjob_calls hv⟩

/-- When a redirection operator lacks its filename, `do_job` stops the shell at
the failed `assert` of `do_redir`, before the builtin test and before the fork. -/
theorem do_job_redir_error (K : shell_h) (e : Int) (bg : Bool) (ts post : List token_t)
    (s : sys) (hnn : token_t.T_NULL ∉ ts) (hbad : redirs_wf ts = false) :
    ∃ s', do_job K e (ts ++ post) ts.length bg s = .abort s' ∧
      s'.forked = s.forked ∧ s'.pids = s.pids ∧ s'.jobs = s.jobs ∧
      s'.addjob_calls = s.addjob_calls := by
  have hB : fd_inv s.fds s.fds [-1, -1] :=
    fd_inv_add_neg (show (-1 : Int) < 0 by decide)
      (fd_inv_add_neg (show (-1 : Int) < 0 by decide) (fd_inv_self s.fds))
  obtain ⟨s1, h1⟩ := do_redir_loop_abort (ts.length + 1) ts [] [] post (-1) (-1) s s.fds
    (Nat.lt_succ_self _) hbad hnn hB
  simp only [List.length_nil, Nat.zero_add, List.nil_append] at h1
  have hv : s1.view = s.view := by
    have := (do_redir_loop_fd 0 (ts.length + 1) (ts ++ post) 0 ts.length (-1) (-1) s).1
    rw [h1] at this
    exact view_of_fd_step this
  refine ⟨s1, ?_, congrArg view_t.forked hv, congrArg view_t.pids hv, congrArg view_t.jobs hv,
    congrArg view_t.addjob_calls hv⟩
  unfold do_job do_redir
  rw [h1]
  rfl

/-- C10 (amended): the launcher stops the shell before any child is forked (no
fork was made, no pid was used, no `addjob` call was made and the job table is
unchanged) when, in `do_pipeline`, the syntax error lies in the first pipeline
stage (it is empty, it holds nothing but redirections, or one of its
redirection operators lacks a filename) or right after the first pipe symbol
(no word follows it), and when, in `do_job`, a redirection operator lacks its
filename. -/
theorem launcher_error_before_fork (K : shell_h) (e : Int) (bg : Bool) (s : sys) :
    (∀ (first R : List token_t) (ntokens : Nat),
      token_t.T_PIPE ∉ first → token_t.T_NULL ∉ first → first.length < ntokens →
      (redirs_wf first = false ∨ strip_redirs first = [] ∨
        ¬ (first.length + 1 < ntokens ∧ starts_with_word R = true)) →
      ∃ s', do_pipeline K e (first ++ .T_PIPE :: R) ntokens bg s = .abort s' ∧
        s'.forked = s.forked ∧ s'.pids = s.pids ∧ s'.jobs = s.jobs ∧
        s'.addjob_calls = s.addjob_calls) ∧
    (∀ (ts post : List token_t), token_t.T_NULL ∉ ts → redirs_wf ts = false →
      ∃ s', do_job K e (ts ++ post) ts.length bg s = .abort s' ∧
        s'.forked = s.forked ∧ s'.pids = s.pids ∧ s'.jobs = s.jobs ∧
        s'.addjob_calls = s.addjob_calls) :=
  ⟨fun first R ntokens h1 h2 h3 h4 =>
      do_pipeline_first_stage_error K e bg first R ntokens s h1 h2 h3 h4,
    fun ts post h1 h2 => do_job_redir_error K e bg ts post s h1 h2⟩

theorem launcher_error_before_fork_witness :
    (∃ s', do_pipeline K0 0 ([.word "a", .T_OUTPUT] ++ .T_PIPE :: [.word "b", .T_NULL]) 4 false
        ex_launch_sys = .abort s' ∧
      s'.forked = ex_launch_sys.forked ∧ s'.pids = ex_launch_sys.pids ∧
      s'.jobs = ex_launch_sys.jobs ∧ s'.addjob_calls = ex_launch_sys.addjob_calls) ∧
    (∃ s', do_job K0 0 ([.word "ls", .T_OUTPUT] ++ [.T_NULL]) 2 false
        ex_launch_sys = .abort s' ∧
      s'.forked = ex_launch_sys.forked ∧ s'.pids = ex_launch_sys.pids ∧
      s'.jobs = ex_launch_sys.jobs ∧ s'.addjob_calls = ex_launch_sys.addjob_calls) :=
  ⟨(launcher_error_before_fork K0 0 false ex_launch_sys).1 [.word "a", .T_OUTPUT]
      [.word "b", .T_NULL] 4 (by decide) (by decide) (by decide) (Or.inl (by decide)),
    (launcher_error_before_fork K0 0 false ex_launch_sys).2 [.word "ls", .T_OUTPUT] [.T_NULL]
      (by decide) (by decide)⟩

/-- C10 (as stated, refuted): the token vector of `a | b |` has an empty
pipeline stage after its last pipe symbol, and that of `a | b >` an operator
without its operand; on both `do_pipeline` stops at a failed `assert` only
after the first stage has been forked (pid 100) and its job and process have
been added to the job table. -/
theorem do_pipeline_error_after_fork :
    (join_stages [[.word "a"], [.word "b"], []] = [.word "a", .T_PIPE, .word "b", .T_PIPE] ∧
      ∃ s', do_pipeline K0 0 [.word "a", .T_PIPE, .word "b", .T_PIPE, .T_NULL] 4 false
          ex_launch_sys = .abort s' ∧
        s'.forked = [100] ∧
        s'.jobs = [⟨100, [⟨100, 1, -1⟩], 7, 1, some "a"⟩]) ∧
    (redirs_wf [.word "b", .T_OUTPUT] = false ∧
      ∃ s', do_pipeline K0 0 [.word "a", .T_PIPE, .word "b", .T_OUTPUT, .T_NULL] 4 false
          ex_launch_sys = .abort s' ∧
        s'.forked = [100] ∧
        s'.jobs = [⟨100, [⟨100, 1, -1⟩], 7, 1, some "a"⟩]) :=
  ⟨⟨rfl, _, rfl, rfl, rfl⟩, ⟨rfl, _, rfl, rfl, rfl⟩⟩

/-! ## Pipe descriptors after `do_pipeline` -/

/-- More iterations than `ntokens - i` never change what the loop of `do_redir`
computes: the bound `ntokens + 1` used by `do_redir` is never reached. -/
theorem do_redir_loop_fuel (base fuel : Nat) :
    ∀ (token : List token_t) (i ntokens : Nat) (input output : Int) (s : sys),
      ntokens - i < fuel →
      do_redir_loop base (fuel + 1) token i ntokens input output s
        = do_redir_loop base fuel token i ntokens input output s := by
  induction fuel with
  | zero => intro token i ntokens input output s h; omega
  | succ fuel ih =>
    intro token i ntokens input output s h
    rw [do_redir_loop]
    conv_rhs => rw [do_redir_loop]
    by_cases hi : i < ntokens
    · simp only [if_pos hi]
      cases hmode : token[base + i]? with
      | none => rfl
      | some mode =>
        simp only []
        by_cases hnull : mode = .T_NULL
        · simp only [if_pos hnull]
        · simp only [if_neg hnull]
          by_cases hredir : mode = .T_INPUT ∨ mode = .T_OUTPUT
          · simp only [if_pos hredir]
            by_cases hi1 : i + 1 < ntokens
            · simp only [if_pos hi1]
              cases hnext : token[base + (i + 1)]? with
              | none => rfl
              | some next =>
                cases next with
                | word path =>
                  simp only []
                  cases do_redir_open mode path input output s with
                  | ok io s1 =>
                    simp only [res_bind_ok]
                    exact ih _ _ _ _ _ _ (by omega)
                  | abort s1 => rfl
                  | blocked s1 => rfl
                | _ => rfl
            · simp only [if_neg hi1]
          · simp only [if_neg hredir]
            exact ih _ _ _ _ _ _ (by omega)
    · simp only [if_neg hi]

/-- Every iteration of the wait loop of `monitorjob` that continues consumes
one entry of `signals`: more iterations than `signals.length + 1` never change
its result. -/
theorem monitorjob_wait_fuel (K : shell_h) (fuel : Nat) :
    ∀ (e : Int) (s : sys), s.signals.length < fuel →
      monitorjob_wait K (fuel + 1) e s = monitorjob_wait K fuel e s := by
  induction fuel with
  | zero => intro e s h; omega
  | succ fuel ih =>
    intro e s h
    rw [monitorjob_wait]
    conv_rhs => rw [monitorjob_wait]
    cases hj : jobstate K s.jobs FG e with
    | none => rfl
    | some v =>
      obtain ⟨state, ec, jobs⟩ := v
      simp only []
      by_cases hr : state = K.RUNNING
      · simp only [if_pos hr]
        cases hsig : s.signals with
        | nil => simp [Sigsuspend, hsig]
        | cons r rest =>
          simp only [Sigsuspend, hsig]
          exact ih _ _ (by simp [hsig] at h ⊢; omega)
      · simp only [if_neg hr]

/-! ## A failing `open`, and `atoi` -/

/-- The line `cat < missing` when the `open` fails: the `Open` wrapper ends the
shell inside `do_redir`; no descriptor was opened, no child was forked and the
job table is as before. -/
theorem do_job_open_fails_example :
    do_job K0 0 [.word "cat", .T_INPUT, .word "missing", .T_NULL] 3 false
      { ex_launch_sys with opens := [false] }
      = .abort { ex_launch_sys with opens := [false] } :=
  rfl

/-- Values of `atoi`: leading white space (vertical tab included) and a sign
are read, the digits end at the first other character, no digit gives 0, and a
number beyond the range of `int` wraps around. -/
theorem atoi_examples :
    atoi "7" = 7 ∧ atoi "  -12ab" = -12 ∧ atoi "x" = 0 ∧ atoi "+5" = 5 ∧
    atoi "4294967299" = 3 ∧ atoi "2147483648" = -2147483648 ∧
    atoi "99999999999999999999" = -1 ∧
    atoi (String.mk [Char.ofNat 11, Char.ofNat 12, '1']) = 1 := by
  decide

/-! ## Job builtins given a number that names no live job -/

/-- With a job number that names no live job, `resumejob` returns false and
changes nothing. -/
theorem resumejob_not_found (K : shell_h) (e j : Int) (bg : Nat) (s : sys) (hj : 0 ≤ j)
    (h : names_live K s.jobs j = false) : resumejob K e j bg s = .ok false s := by
  have hj' : ¬ j < 0 := by omega
  unfold names_live at h
  unfold resumejob
  simp only [if_neg hj']
  cases hslot : s.jobs[j.toNat]? with
  | none => rfl
  | some job =>
    simp only [hslot, hj, decide_True, Bool.true_and, decide_eq_false_iff_not, ne_eq,
      not_not] at h
    simp only [if_pos h]

/-- With a job number that names no live job, `killjob` returns false and
changes nothing. -/
theorem killjob_not_found (K : shell_h) (j : Int) (s : sys) (hj : 0 ≤ j)
    (h : names_live K s.jobs j = false) : killjob K j s = .ok false s := by
  have hj' : ¬ j < 0 := by omega
  unfold names_live at h
  unfold killjob
  simp only [if_neg hj']
  cases hslot : s.jobs[j.toNat]? with
  | none => rfl
  | some job =>
    simp only [hslot, hj, decide_True, Bool.true_and, decide_eq_false_iff_not, ne_eq,
      not_not] at h
    simp only [if_pos h]

/-- The argument of `kill` after its percent sign: `argv[0] + 1`. -/
theorem percent_arg (a : String) :
    ("%" ++ a).toList.head? = some '%' ∧ String.mk (("%" ++ a).toList.drop 1) = a := by
  have h : ("%" ++ a).toList = '%' :: a.toList := by
    simp [String.toList, String.data_append]
  rw [h]
  exact ⟨rfl, rfl⟩

/-- For every job table and every argument whose number (as `atoi` reads it) is
not negative and names no live job, `fg`, `bg` and `kill %` print their "job
not found" line, return 0 and leave the shell state, the job table included,
as it was. -/
theorem job_builtins_not_found (K : shell_h) (e : Int) (a : String) (rest : List token_t)
    (s : sys) (hj : 0 ≤ atoi a) (h : names_live K s.jobs (atoi a) = false) :
    builtin_command K e (.word "fg" :: .word a :: rest) s
      = .ok 0 (msg (.fg_not_found (some a)) s) ∧
    builtin_command K e (.word "bg" :: .word a :: rest) s
      = .ok 0 (msg (.bg_not_found (some a)) s) ∧
    builtin_command K e (.word "kill" :: .word ("%" ++ a) :: rest) s
      = .ok 0 (msg (.kill_not_found (some ("%" ++ a))) s) := by
  refine ⟨?_, ?_, ?_⟩
  · simp [builtin_command, arg_at, do_fg, resumejob_not_found K e _ FG s hj h, res.bind]
  · simp [builtin_command, arg_at, do_bg, resumejob_not_found K e _ BG s hj h, res.bind]
  · obtain ⟨h1, h2⟩ := percent_arg a
    simp [builtin_command, arg_at, do_kill, h1, h2, killjob_not_found K _ s hj h, res.bind]

/-- C11 (the return value fails): the table holds job 1 (running), job 3
(stopped) and job 4 (finished); slot 2 is free.  The commands `fg 7`, `bg 4`
and `kill %2` name no live job: each prints its "job not found" line and leaves
the job table as it was, but each returns 0, as does `do_job` for the line
`fg 7`. -/
theorem job_builtins_not_found_return_zero :
    names_live K0 ex_jobs_sys.jobs (atoi "7") = false ∧
    names_live K0 ex_jobs_sys.jobs (atoi "4") = false ∧
    names_live K0 ex_jobs_sys.jobs (atoi "2") = false ∧
    builtin_command K0 0 [.word "fg", .word "7", .T_NULL] ex_jobs_sys
      = .ok 0 (msg (.fg_not_found (some "7")) ex_jobs_sys) ∧
    builtin_command K0 0 [.word "bg", .word "4", .T_NULL] ex_jobs_sys
      = .ok 0 (msg (.bg_not_found (some "4")) ex_jobs_sys) ∧
    builtin_command K0 0 [.word "kill", .word "%2", .T_NULL] ex_jobs_sys
      = .ok 0 (msg (.kill_not_found (some "%2")) ex_jobs_sys) ∧
    do_job K0 0 [.word "fg", .word "7", .T_NULL] 2 false ex_jobs_sys
      = .ok 0 (msg (.fg_not_found (some "7")) ex_jobs_sys) ∧
    (msg (.fg_not_found (some "7")) ex_jobs_sys).jobs = ex_table := by
  decide

/-! ## Descriptors of `do_job` -/

/-- A builtin that reports "not a builtin" (a negative value) has changed
nothing. -/
theorem builtin_command_neg {K : shell_h} {e c : Int} {argv : List token_t} {s s' : sys}
    (h : builtin_command K e argv s = .ok c s') (hc : c < 0) : s' = s := by
  unfold builtin_command at h
  split at h
  · rename_i name args
    split_ifs at h
    · unfold do_quit at h
      obtain ⟨_, _, _, h⟩ := res_bind_eq_ok h
      cases h
    · cases ha : arg_at args with
      | none => rw [ha] at h; cases h
      | some arg =>
        rw [ha] at h
        unfold do_chdir at h
        simp only at h
        split at h
        · split_ifs at h <;> (cases h; omega)
        · cases h; omega
    · unfold do_jobs at h
      split at h
      · cases h
      · cases h; omega
    · cases ha : arg_at args with
      | none => rw [ha] at h; cases h
      | some arg =>
        rw [ha] at h
        unfold do_fg at h
        obtain ⟨_, _, _, h⟩ := res_bind_eq_ok h
        cases h; omega
    · cases ha : arg_at args with
      | none => rw [ha] at h; cases h
      | some arg =>
        rw [ha] at h
        unfold do_bg at h
        obtain ⟨_, _, _, h⟩ := res_bind_eq_ok h
        cases h; omega
    · cases ha : arg_at args with
      | none => rw [ha] at h; cases h
      | some arg =>
        rw [ha] at h
        cases arg with
        | none => cases h; rfl
        | some a =>
          simp only [do_kill] at h
          split_ifs at h
          · cases h; rfl
          · obtain ⟨_, _, _, h⟩ := res_bind_eq_ok h
            cases h; omega
    · cases h; rfl
  · cases h

/-- The foreground-builtin fast path of `do_job` (line 76): when the builtin
returns a value that is not negative, `do_job` returns it in the state the
builtin left, with no `MaybeClose` call in between. -/
theorem do_job_builtin_path (K : shell_h) (e : Int) (token : List token_t) (ntokens : Nat)
    (s s1 s2 : sys) (r : Nat × List token_t × Int × Int) (c : Int)
    (hr : do_redir token 0 ntokens (-1) (-1) s = .ok r s1)
    (hb : builtin_command K e r.2.1 s1 = .ok c s2) (hc : 0 ≤ c) :
    do_job K e token ntokens false s = .ok c s2 := by
  unfold do_job
  rw [hr]
  simp only [res.bind, hb]
  simp [hc]

/-- The fork path of `do_job` (lines 84-115): when `do_job` returns after
starting a child (the job is a background job, or the builtin test said "not a
builtin"), the descriptors open in the shell are those that were open before
the call: each descriptor that `do_redir` opened has been closed. -/
theorem do_job_fork_path_closes (K : shell_h) (e : Int) (token : List token_t)
    (ntokens : Nat) (bg : Bool) (s s' : sys) (v : Int)
    (h : do_job K e token ntokens bg s = .ok v s')
    (hpath : bg = true ∨ ∀ r s1 c s2, do_redir token 0 ntokens (-1) (-1) s = .ok r s1 →
      builtin_command K e r.2.1 s1 = .ok c s2 → c < 0) :
    ∀ x, x ∈ s'.fds ↔ x ∈ s.fds := by
  unfold do_job at h
  obtain ⟨r, s1, h1, g1⟩ := res_bind_eq_ok h
  clear h
  have hB : fd_inv s.fds s.fds [-1, -1] :=
    fd_inv_add_neg (show (-1 : Int) < 0 by decide)
      (fd_inv_add_neg (show (-1 : Int) < 0 by decide) (fd_inv_self s.fds))
  have hB1 : fd_inv s1.fds s.fds [r.2.2.1, r.2.2.2] := by
    have hfd := (do_redir_loop_fd 0 (ntokens + 1) token 0 ntokens (-1) (-1) s).2 s.fds hB
      r.1 r.2.1 r.2.2.1 r.2.2.2 s1
    exact hfd h1
  simp only at g1
  obtain ⟨c, s2, hfast, g2⟩ := res_bind_eq_ok g1
  clear g1
  have hs2 : s2 = s1 ∧ ¬ ((!bg) = true ∧ c ≥ 0) := by
    cases bg with
    | true =>
      simp only [if_true] at hfast
      cases hfast
      exact ⟨rfl, by simp⟩
    | false =>
      simp only [Bool.false_eq_true, if_false] at hfast
      rcases hpath with hp | hp
      · cases hp
      · have hc := hp r s1 c s2 h1 hfast
        exact ⟨builtin_command_neg hfast hc, by omega⟩
  rw [if_neg hs2.2] at g2
  obtain ⟨pid, s3, h3, g3⟩ := res_bind_eq_ok g2
  obtain ⟨pids, _, hs3⟩ := Fork_ok h3
  obtain ⟨a1, s4, h4, g4⟩ := res_bind_eq_ok g3
  obtain ⟨a2, s5, h5, g5⟩ := res_bind_eq_ok g4
  have hB3 : fd_inv ({ s3 with log := s3.log ++ [.setpgid pid pid] } : sys).fds s.fds
      [r.2.2.1, r.2.2.2] := by
    rw [hs3, hs2.1]; exact hB1
  obtain ⟨hB4, _, _⟩ := MaybeClose_fd hB3 h4
  obtain ⟨hB5, _, _⟩ := MaybeClose_fd hB4 h5
  obtain ⟨u, s6, h6, g6⟩ := res_bind_eq_ok g5
  have hs6 : s6.fds = s5.fds := by
    rw [(call_addproc_fd s.fds h6).1, (call_addjob_fd K pid bg s5 s.fds).1]
  have hfin : s'.fds = s5.fds := by
    cases bg with
    | true =>
      simp only [if_true] at g6
      cases g6
      exact hs6
    | false =>
      simp only [Bool.false_eq_true, if_false] at g6
      rw [(monitorjob_fd s.fds g6).1, hs6]
  intro x
  rw [hfin, hB5.1 x]
  simp

/-- The background job `ls -l > f &` of a shell with an empty job table:
`do_job` returns 0, the descriptor opened for `f` has been closed and the
descriptors open are those open before. -/
theorem do_job_fork_path_example :
    ∃ s', do_job K0 0 [.word "ls", .word "-l", .T_OUTPUT, .word "f", .T_NULL] 4 true
        ex_launch_sys = .ok 0 s' ∧
      s'.fds = [0, 1, 2, 3] ∧
      s'.log = [.open_wr "f" 4, .fork 100 (-1) 4, .setpgid 100 100, .close 4,
        .addjob 100 true 1, .addproc 1 100 ["ls", "-l"]] :=
  ⟨_, rfl, rfl, rfl⟩

/-- C12 (the fast path fails): the line `cd /root > f` of a shell whose open
descriptors are 0 to 3.  `do_redir` opens `f` as descriptor 4, the builtin
`cd` returns 0 and `do_job` returns at once: no `close` follows the `open`
and descriptor 4 is still open in the shell. -/
theorem do_job_builtin_leaves_redir_open :
    ∃ s', do_job K0 0 [.word "cd", .word "/root", .T_OUTPUT, .word "f", .T_NULL] 4 false
        ex_launch_sys = .ok 0 s' ∧
      s'.log = [.open_wr "f" 4] ∧ s'.fds = [4, 0, 1, 2, 3] ∧
      ex_launch_sys.fds = [0, 1, 2, 3] ∧ s'.cwd = "/root" :=
  ⟨_, rfl, rfl, rfl, rfl, rfl⟩

end Shell
